import Mathlib

/-!
Verification of `TinyCommon`: a fixed-capacity ring buffer
(`src/base/circular_queue.h`) and a bounded LRU cache
(`src/base/lru_cache.h`).

The C++ classes are shallowly embedded as Lean structures holding the same
fields; member functions become pure functions on those structures.  Mutexes
are dropped (we model the sequential semantics of each operation, which is
what every claim is about), `std::array<T, BufSize>` becomes a `List T` of
length `BufSize`, `size_t` becomes `Nat` (no operation here can overflow a
64-bit `size_t` from reachable states), and the fatal `assert` branches
become `none` results of `Option`-valued operations.
-/

set_option linter.unusedSectionVars false

namespace tinycommon

/-- Embedding of `circular_queue<T, BufSize>`: the member fields of the C++
class.  `m_buffer` is the pointed-to `std::array` (the `shared_ptr`
indirection is made explicit only in the two-instance world model below,
where copy-on-write matters). -/
structure circular_queue (T : Type) where
  m_buffer   : List T
  m_capacity : Nat
  m_head     : Nat
  m_tail     : Nat
  m_isEmpty  : Bool
deriving DecidableEq

namespace circular_queue

variable {T : Type} [Inhabited T]

/-- Embedding of the constructor `circular_queue()`: default-initialised
storage of length `BufSize`, `m_head = m_tail = 0`, empty. -/
def mkQueue (T : Type) [Inhabited T] (BufSize : Nat) : circular_queue T :=
  { m_buffer := List.replicate BufSize default
    m_capacity := BufSize
    m_head := 0
    m_tail := 0
    m_isEmpty := true }

/-- Embedding of `_index_add`: `(index + n) % m_capacity`. -/
def _index_add (q : circular_queue T) (index n : Nat) : Nat :=
  (index + n) % q.m_capacity

/-- Embedding of `_at`: read slot `n` of the buffer. -/
def _at (q : circular_queue T) (n : Nat) : T :=
  q.m_buffer.getD n default

/-- Embedding of `_get_size`. -/
def _get_size (q : circular_queue T) : Nat :=
  if q.m_isEmpty = true then 0
  else if q.m_tail ≥ q.m_head then q.m_tail - q.m_head + 1
  else q.m_capacity - (q.m_head - q.m_tail - 1)

/-- Embedding of `size()`. -/
def size (q : circular_queue T) : Nat := q._get_size

/-- Embedding of `empty()`. -/
def empty (q : circular_queue T) : Bool := q.m_isEmpty

/-- Embedding of `capacity()`. -/
def capacity (q : circular_queue T) : Nat := q.m_capacity

/-- Embedding of `front()`.  The C++ function `assert`s that the queue is
non-empty and then returns `_at(head, buffer)`; the failed assertion is
modelled as `none`. -/
def front? (q : circular_queue T) : Option T :=
  if q.m_isEmpty = true then none else some (q._at q.m_head)

/-- Embedding of `back()` (assertion modelled as `none`; the body reads
`_at(m_tail, buffer)`). -/
def back? (q : circular_queue T) : Option T :=
  if q.m_isEmpty = true then none else some (q._at q.m_tail)

/-- Embedding of `operator[](n)`: asserts `n < _get_size(...)` (modelled as
`none`), then returns `_at(_index_add(head, n), buffer)`. -/
def opIndex (q : circular_queue T) (n : Nat) : Option T :=
  if n < q._get_size then some (q._at (q._index_add q.m_head n)) else none

/-- Embedding of `push_back`: the C++ body first advances `m_head` when the
queue is full (`_index_add(m_tail, 1) == m_head`), then advances `m_tail`
unless the queue was empty, then writes the new value at `m_tail` and clears
the empty flag.  The copy-on-write clone of the buffer changes no values and
is elided here (it reappears in the world model). -/
def push_back (q : circular_queue T) (v : T) : circular_queue T :=
  let head1 := if q._index_add q.m_tail 1 = q.m_head
               then q._index_add q.m_head 1 else q.m_head
  let tail1 := if q.m_isEmpty = false then q._index_add q.m_tail 1 else q.m_tail
  { q with m_head := head1
           m_tail := tail1
           m_buffer := q.m_buffer.set tail1 v
           m_isEmpty := false }

/-- Embedding of `pop()`: asserts non-empty (modelled as `none`), remembers
`preHead = m_head`, advances `m_head`, and if the new head equals
`_index_add(m_tail, 1)` resets `m_tail := m_head` and marks the queue empty;
returns the element at `preHead`. -/
def pop (q : circular_queue T) : Option (T × circular_queue T) :=
  if q.m_isEmpty = true then none
  else
    let preHead := q.m_head
    let head1 := q._index_add q.m_head 1
    if head1 = q._index_add q.m_tail 1 then
      some (q._at preHead, { q with m_head := head1, m_tail := head1, m_isEmpty := true })
    else
      some (q._at preHead, { q with m_head := head1 })

/-- Well-formedness of a queue state: positive capacity, buffer of exactly
that length, indices in range, and `head = tail` whenever the empty flag is
set.  All states reachable from the constructor satisfy this. -/
def Wf (q : circular_queue T) : Prop :=
  1 ≤ q.m_capacity ∧ q.m_buffer.length = q.m_capacity ∧
  q.m_head < q.m_capacity ∧ q.m_tail < q.m_capacity ∧
  (q.m_isEmpty = true → q.m_head = q.m_tail)

instance (q : circular_queue T) : Decidable q.Wf := by
  unfold Wf; infer_instance

/-- The abstract contents of the queue, oldest first: element `i` lives at
slot `(m_head + i) % m_capacity`.  This is the observation function every
claim about the ring buffer is phrased through. -/
def toList (q : circular_queue T) : List T :=
  (List.range q._get_size).map (fun i => q._at ((q.m_head + i) % q.m_capacity))

theorem toList_length (q : circular_queue T) : (toList q).length = q._get_size := by
  simp [toList]

theorem toList_getElem? (q : circular_queue T) (i : Nat) :
    (toList q)[i]? =
      if i < q._get_size then some (q._at ((q.m_head + i) % q.m_capacity)) else none := by
  by_cases h : i < q._get_size
  · simp [toList, List.getElem?_map, List.getElem?_range, h]
  · simp [toList, List.getElem?_map, List.getElem?_range, h]
    omega

theorem empty_toList (q : circular_queue T) (h : q.m_isEmpty = true) : q.toList = [] := by
  simp [toList, _get_size, h]

/-- For a well-formed empty queue the size is `0`; this is definitional. -/
theorem size_of_empty (q : circular_queue T) (h : q.m_isEmpty = true) : q._get_size = 0 := by
  simp [_get_size, h]

/-- Size formula for non-empty well-formed states:
`size = (tail + capacity - head) % capacity + 1`. -/
theorem size_formula (q : circular_queue T) (hwf : q.Wf) (hne : q.m_isEmpty = false) :
    q._get_size = (q.m_tail + q.m_capacity - q.m_head) % q.m_capacity + 1 := by
  obtain ⟨hc, hlen, hh, ht, hemp⟩ := hwf
  unfold _get_size
  rw [hne]
  simp only [Bool.false_eq_true, if_false]
  by_cases hth : q.m_tail ≥ q.m_head
  · rw [if_pos hth]
    have h1 : q.m_tail + q.m_capacity - q.m_head = q.m_capacity + (q.m_tail - q.m_head) := by
      omega
    rw [h1, Nat.add_mod_left, Nat.mod_eq_of_lt (by omega)]
  · rw [if_neg hth]
    have h1 : q.m_tail + q.m_capacity - q.m_head = q.m_capacity - (q.m_head - q.m_tail) := by
      omega
    rw [h1, Nat.mod_eq_of_lt (by omega)]
    omega

theorem size_le_capacity (q : circular_queue T) (hwf : q.Wf) :
    q._get_size ≤ q.m_capacity := by
  by_cases he : q.m_isEmpty = true
  · rw [size_of_empty q he]
    exact Nat.zero_le _
  · have hne : q.m_isEmpty = false := by simp at he; exact he
    rw [size_formula q hwf hne]
    obtain ⟨hc, hlen, hh, ht, hemp⟩ := hwf
    have := Nat.mod_lt (q.m_tail + q.m_capacity - q.m_head)
      (show 0 < q.m_capacity by omega)
    omega

theorem size_pos_of_ne (q : circular_queue T) (hwf : q.Wf) (hne : q.m_isEmpty = false) :
    1 ≤ q._get_size := by
  obtain ⟨hc, hlen, hh, ht, hemp⟩ := hwf
  unfold _get_size
  rw [hne]
  simp only [Bool.false_eq_true, if_false]
  by_cases hth : q.m_tail ≥ q.m_head
  · rw [if_pos hth]; omega
  · rw [if_neg hth]; omega

end circular_queue

/-- `(a + 1) % C` without the modulus, for `a < C`. -/
theorem succ_mod_eq (a C : Nat) (h : a < C) :
    (a + 1) % C = if a + 1 = C then 0 else a + 1 := by
  by_cases h1 : a + 1 = C
  · rw [if_pos h1, h1, Nat.mod_self]
  · rw [if_neg h1, Nat.mod_eq_of_lt (by omega)]

/-- Slots `(h + i) % C` are pairwise distinct for offsets `i < C`. -/
theorem add_mod_inj (C h i j : Nat) (hi : i < C) (hj : j < C)
    (heq : (h + i) % C = (h + j) % C) : i = j := by
  have h2 : i ≡ j [MOD C] := Nat.ModEq.add_left_cancel' h heq
  have h3 : i % C = j % C := h2
  rwa [Nat.mod_eq_of_lt hi, Nat.mod_eq_of_lt hj] at h3

theorem getD_set_eq {T : Type} (l : List T) (i : Nat) (a : T) (h : i < l.length) :
    (l.set i a).getD i a = a := by
  rw [List.getD_eq_getElem?_getD, List.getElem?_set_self (by omega)]
  rfl

theorem getD_set_eq' {T : Type} [Inhabited T] (l : List T) (i : Nat) (a : T) (h : i < l.length) :
    (l.set i a).getD i default = a := by
  rw [List.getD_eq_getElem?_getD, List.getElem?_set_self (by omega)]
  rfl

theorem getD_set_ne {T : Type} [Inhabited T] (l : List T) (i j : Nat) (a : T) (h : i ≠ j) :
    (l.set i a).getD j default = l.getD j default := by
  rw [List.getD_eq_getElem?_getD, List.getD_eq_getElem?_getD, List.getElem?_set_ne h]

namespace circular_queue

variable {T : Type} [Inhabited T]

/-- In a non-empty well-formed state the full-queue test of `push_back`,
`_index_add(m_tail, 1) == m_head`, holds exactly when the size equals the
capacity. -/
theorem full_iff (q : circular_queue T) (hwf : q.Wf) (hne : q.m_isEmpty = false) :
    ((q.m_tail + 1) % q.m_capacity = q.m_head ↔ q._get_size = q.m_capacity) := by
  obtain ⟨hc, hlen, hh, ht, hemp⟩ := hwf
  rw [succ_mod_eq q.m_tail q.m_capacity ht]
  unfold _get_size
  rw [hne]
  simp only [Bool.false_eq_true, if_false]
  by_cases h1 : q.m_tail + 1 = q.m_capacity
  · rw [if_pos h1]
    by_cases hth : q.m_tail ≥ q.m_head
    · rw [if_pos hth]; omega
    · rw [if_neg hth]; omega
  · rw [if_neg h1]
    by_cases hth : q.m_tail ≥ q.m_head
    · rw [if_pos hth]; omega
    · rw [if_neg hth]; omega

theorem push_back_head (q : circular_queue T) (v : T) :
    (q.push_back v).m_head =
      if (q.m_tail + 1) % q.m_capacity = q.m_head
      then (q.m_head + 1) % q.m_capacity else q.m_head := rfl

theorem push_back_tail (q : circular_queue T) (v : T) :
    (q.push_back v).m_tail =
      if q.m_isEmpty = false then (q.m_tail + 1) % q.m_capacity else q.m_tail := rfl

theorem push_back_buffer (q : circular_queue T) (v : T) :
    (q.push_back v).m_buffer = q.m_buffer.set (q.push_back v).m_tail v := rfl

theorem push_back_isEmpty (q : circular_queue T) (v : T) :
    (q.push_back v).m_isEmpty = false := rfl

theorem push_back_capacity (q : circular_queue T) (v : T) :
    (q.push_back v).m_capacity = q.m_capacity := rfl

theorem push_back_wf (q : circular_queue T) (v : T) (hwf : q.Wf) :
    (q.push_back v).Wf := by
  obtain ⟨hc, hlen, hh, ht, hemp⟩ := hwf
  refine ⟨hc, ?_, ?_, ?_, ?_⟩
  · rw [push_back_buffer, List.length_set, push_back_capacity]; exact hlen
  · rw [push_back_head, push_back_capacity]
    split
    · exact Nat.mod_lt _ (by omega)
    · exact hh
  · rw [push_back_tail, push_back_capacity]
    split
    · exact Nat.mod_lt _ (by omega)
    · exact ht
  · rw [push_back_isEmpty]
    intro h
    exact absurd h (by simp)

theorem push_back_size (q : circular_queue T) (v : T) (hwf : q.Wf) :
    (q.push_back v)._get_size =
      if q._get_size = q.m_capacity then q.m_capacity else q._get_size + 1 := by
  have hc := hwf.1
  have hh := hwf.2.2.1
  have ht := hwf.2.2.2.1
  have hemp := hwf.2.2.2.2
  unfold _get_size
  rw [push_back_isEmpty, push_back_head, push_back_tail, push_back_capacity]
  rw [if_neg (by simp : ¬(false = true))]
  rw [succ_mod_eq q.m_tail q.m_capacity ht, succ_mod_eq q.m_head q.m_capacity hh]
  by_cases hqe : q.m_isEmpty = true
  · have hht : q.m_head = q.m_tail := hemp hqe
    rw [if_neg (show ¬(q.m_isEmpty = false) by simp [hqe])]
    rw [if_pos hqe]
    split_ifs <;> omega
  · have hqe2 : q.m_isEmpty = false := by
      revert hqe; cases q.m_isEmpty <;> simp
    rw [if_pos hqe2]
    rw [if_neg (show ¬(q.m_isEmpty = true) by simp [hqe2])]
    split_ifs <;> omega

/-- In a non-empty well-formed state the tail slot is `head + (size - 1)`
modulo the capacity. -/
theorem tail_formula (q : circular_queue T) (hwf : q.Wf) (hne : q.m_isEmpty = false) :
    q.m_tail = (q.m_head + (q._get_size - 1)) % q.m_capacity := by
  have hh := hwf.2.2.1
  have ht := hwf.2.2.2.1
  rw [size_formula q hwf hne]
  simp only [Nat.add_sub_cancel]
  rw [Nat.add_mod_mod]
  have e2 : q.m_head + (q.m_tail + q.m_capacity - q.m_head) = q.m_tail + q.m_capacity := by
    omega
  rw [e2, Nat.add_mod_right, Nat.mod_eq_of_lt ht]

/-- Central simulation lemma for `push_back`: on the abstract contents it
appends the new value, first dropping the oldest element when the queue is
at capacity. -/
theorem push_back_toList (q : circular_queue T) (v : T) (hwf : q.Wf) :
    toList (q.push_back v) =
      if q._get_size = q.m_capacity then (toList q).drop 1 ++ [v]
      else toList q ++ [v] := by
  have hc := hwf.1
  have hlen := hwf.2.1
  have hh := hwf.2.2.1
  have ht := hwf.2.2.2.1
  have hemp := hwf.2.2.2.2
  have hszle := size_le_capacity q hwf
  have hsz' := push_back_size q v hwf
  have hcap' := push_back_capacity q v
  apply List.ext_getElem?
  intro i
  rw [toList_getElem?]
  simp only [_at]
  by_cases hfull : q._get_size = q.m_capacity
  · -- full queue: the oldest slot (at m_head) is overwritten
    rw [if_pos hfull] at hsz' ⊢
    have hne : q.m_isEmpty = false := by
      cases hqe : q.m_isEmpty with
      | false => rfl
      | true => have := size_of_empty q hqe; omega
    have hfullc : (q.m_tail + 1) % q.m_capacity = q.m_head :=
      (full_iff q hwf hne).2 hfull
    have hhead' : (q.push_back v).m_head = (q.m_head + 1) % q.m_capacity := by
      rw [push_back_head, if_pos hfullc]
    have htail' : (q.push_back v).m_tail = q.m_head := by
      rw [push_back_tail, if_pos hne, hfullc]
    have hbuf' : (q.push_back v).m_buffer = q.m_buffer.set q.m_head v := by
      rw [push_back_buffer, htail']
    have hlistlen : (toList q).length = q.m_capacity := by
      rw [toList_length, hfull]
    rw [hsz', hcap', hhead', hbuf']
    by_cases hi : i < q.m_capacity
    · rw [if_pos hi]
      by_cases hi1 : i < q.m_capacity - 1
      · -- surviving element i: was element i+1 of the old contents
        rw [List.getElem?_append_left (by simp [hlistlen]; omega)]
        rw [List.getElem?_drop, toList_getElem?, if_pos (by omega)]
        have hidx : ((q.m_head + 1) % q.m_capacity + i) % q.m_capacity
            = (q.m_head + (1 + i)) % q.m_capacity := by
          rw [Nat.mod_add_mod, Nat.add_assoc]
        have hne2 : q.m_head ≠ (q.m_head + (1 + i)) % q.m_capacity := by
          intro hcontra
          have h0 : (q.m_head + 0) % q.m_capacity = (q.m_head + (1 + i)) % q.m_capacity := by
            rw [Nat.add_zero, Nat.mod_eq_of_lt hh]
            exact hcontra
          have := add_mod_inj q.m_capacity q.m_head 0 (1 + i) (by omega) (by omega) h0
          omega
        simp only [_at]
        rw [hidx, getD_set_ne _ _ _ _ hne2]
      · -- the written slot: i = capacity - 1, the new value v
        have hieq : i = q.m_capacity - 1 := by omega
        rw [List.getElem?_append_right (by simp [hlistlen]; omega)]
        have hidx : ((q.m_head + 1) % q.m_capacity + i) % q.m_capacity = q.m_head := by
          rw [Nat.mod_add_mod]
          have : q.m_head + 1 + i = q.m_head + q.m_capacity := by omega
          rw [this, Nat.add_mod_right, Nat.mod_eq_of_lt hh]
        rw [hidx, getD_set_eq' _ _ _ (by omega)]
        simp [hlistlen, hieq]
    · rw [if_neg hi]
      symm
      apply List.getElem?_eq_none
      simp [hlistlen]
      omega
  · -- queue not yet full: the new value is appended, nothing dropped
    rw [if_neg hfull] at hsz' ⊢
    by_cases hqe : q.m_isEmpty = true
    · -- empty queue: new single element at the (unchanged) tail slot
      have hht : q.m_head = q.m_tail := hemp hqe
      have hsz0 : q._get_size = 0 := size_of_empty q hqe
      have htail' : (q.push_back v).m_tail = q.m_tail := by
        rw [push_back_tail, if_neg (by simp [hqe])]
      have hhead' : (q.push_back v).m_head = q.m_tail := by
        rw [push_back_head]
        split
        case isTrue hcond =>
          rw [succ_mod_eq q.m_tail q.m_capacity ht] at hcond
          by_cases h1 : q.m_tail + 1 = q.m_capacity
          · rw [if_pos h1] at hcond
            have hC1 : q.m_capacity = 1 := by omega
            rw [succ_mod_eq q.m_head q.m_capacity hh,
              if_pos (show q.m_head + 1 = q.m_capacity by omega)]
            omega
          · rw [if_neg h1] at hcond
            omega
        case isFalse hcond => exact hht
      have hbuf' : (q.push_back v).m_buffer = q.m_buffer.set q.m_tail v := by
        rw [push_back_buffer, htail']
      rw [hsz', hcap', hhead', hbuf', hsz0, empty_toList q hqe]
      simp only [List.nil_append]
      by_cases hi : i < 1
      · have hieq : i = 0 := by omega
        rw [if_pos (by omega), hieq]
        simp only [_at, Nat.add_zero, Nat.mod_eq_of_lt ht]
        rw [getD_set_eq' _ _ _ (by omega)]
        rfl
      · rw [if_neg (by omega)]
        have hieq : 1 ≤ i := by omega
        symm
        apply List.getElem?_eq_none
        simp
        omega
    · -- non-empty, non-full: append at the next tail slot
      have hqe2 : q.m_isEmpty = false := by
        revert hqe; cases q.m_isEmpty <;> simp
      have hszpos : 1 ≤ q._get_size := size_pos_of_ne q hwf hqe2
      have hszlt : q._get_size < q.m_capacity := by omega
      have hfullc : ¬((q.m_tail + 1) % q.m_capacity = q.m_head) := by
        intro hcontra
        exact hfull ((full_iff q hwf hqe2).1 hcontra)
      have hhead' : (q.push_back v).m_head = q.m_head := by
        rw [push_back_head, if_neg hfullc]
      have htail' : (q.push_back v).m_tail = (q.m_head + q._get_size) % q.m_capacity := by
        rw [push_back_tail, if_pos hqe2, tail_formula q hwf hqe2, Nat.mod_add_mod]
        congr 1
        omega
      have hbuf' : (q.push_back v).m_buffer
          = q.m_buffer.set ((q.m_head + q._get_size) % q.m_capacity) v := by
        rw [push_back_buffer, htail']
      have hlistlen : (toList q).length = q._get_size := toList_length q
      rw [hsz', hcap', hhead', hbuf']
      by_cases hi : i < q._get_size
      · -- surviving elements are untouched
        rw [if_pos (by omega)]
        rw [List.getElem?_append_left (by omega)]
        rw [toList_getElem?, if_pos hi]
        have hne2 : (q.m_head + q._get_size) % q.m_capacity
            ≠ (q.m_head + i) % q.m_capacity := by
          intro hcontra
          have := add_mod_inj q.m_capacity q.m_head q._get_size i
            (by omega) (by omega) hcontra
          omega
        simp only [_at]
        rw [getD_set_ne _ _ _ _ hne2]
      · by_cases hi2 : i = q._get_size
        · -- the appended value
          rw [if_pos (by omega)]
          rw [List.getElem?_append_right (by omega), hi2]
          rw [getD_set_eq' _ _ _
            (by rw [hlen]; exact Nat.mod_lt _ (by omega))]
          simp [hlistlen]
        · rw [if_neg (by omega)]
          symm
          apply List.getElem?_eq_none
          simp [hlistlen]
          omega

/-- Iterated `push_back`, oldest argument first. -/
def pushList (q : circular_queue T) (vs : List T) : circular_queue T :=
  vs.foldl push_back q

theorem pushList_nil (q : circular_queue T) : pushList q [] = q := rfl

theorem pushList_cons (q : circular_queue T) (v : T) (rest : List T) :
    pushList q (v :: rest) = pushList (q.push_back v) rest := rfl

theorem front?_eq (q : circular_queue T) (hwf : q.Wf) :
    q.front? = (toList q)[0]? := by
  have hh := hwf.2.2.1
  rw [toList_getElem?]
  unfold front?
  by_cases hqe : q.m_isEmpty = true
  · rw [if_pos hqe, if_neg (by rw [size_of_empty q hqe]; omega)]
  · have hqe2 : q.m_isEmpty = false := by
      revert hqe; cases q.m_isEmpty <;> simp
    rw [if_neg hqe, if_pos (by have := size_pos_of_ne q hwf hqe2; omega)]
    simp only [_at, Nat.add_zero, Nat.mod_eq_of_lt hh]

theorem back?_eq (q : circular_queue T) (hwf : q.Wf) :
    q.back? = (toList q)[q._get_size - 1]? := by
  rw [toList_getElem?]
  unfold back?
  by_cases hqe : q.m_isEmpty = true
  · rw [if_pos hqe, if_neg (by rw [size_of_empty q hqe]; omega)]
  · have hqe2 : q.m_isEmpty = false := by
      revert hqe; cases q.m_isEmpty <;> simp
    have hpos := size_pos_of_ne q hwf hqe2
    rw [if_neg hqe, if_pos (by omega)]
    rw [← tail_formula q hwf hqe2]

theorem opIndex_eq (q : circular_queue T) (n : Nat) :
    q.opIndex n = (toList q)[n]? :=
  (toList_getElem? q n).symm

/-- Simulation lemma for `pop`: it returns the oldest element and the rest
of the contents; when the removed element was the last one, head and tail
are reset together and the empty flag is raised. -/
theorem pop_toList (q : circular_queue T) (hwf : q.Wf) (hne : q.m_isEmpty = false) :
    ∃ q', q.pop = some ((toList q).getD 0 default, q') ∧ q'.Wf ∧
      q'.m_capacity = q.m_capacity ∧ q'.m_buffer = q.m_buffer ∧
      toList q' = (toList q).drop 1 ∧
      (q._get_size = 1 → q'.m_isEmpty = true ∧ q'.m_head = q'.m_tail) := by
  have hc := hwf.1
  have hlen := hwf.2.1
  have hh := hwf.2.2.1
  have ht := hwf.2.2.2.1
  have hpos := size_pos_of_ne q hwf hne
  have hval : (toList q).getD 0 default = q._at q.m_head := by
    rw [List.getD_eq_getElem?_getD, toList_getElem?, if_pos (by omega)]
    simp only [Nat.add_zero, Nat.mod_eq_of_lt hh, Option.getD_some]
  have hiff : ((q.m_head + 1) % q.m_capacity = (q.m_tail + 1) % q.m_capacity)
      ↔ q.m_head = q.m_tail := by
    rw [succ_mod_eq _ _ hh, succ_mod_eq _ _ ht]
    by_cases h1 : q.m_head + 1 = q.m_capacity
    · rw [if_pos h1]
      by_cases h2 : q.m_tail + 1 = q.m_capacity
      · rw [if_pos h2]; omega
      · rw [if_neg h2]; omega
    · rw [if_neg h1]
      by_cases h2 : q.m_tail + 1 = q.m_capacity
      · rw [if_pos h2]; omega
      · rw [if_neg h2]; omega
  have hsize1 : (q._get_size = 1) ↔ q.m_head = q.m_tail := by
    unfold _get_size
    rw [hne]
    simp only [Bool.false_eq_true, if_false]
    by_cases hth : q.m_tail ≥ q.m_head
    · rw [if_pos hth]; omega
    · rw [if_neg hth]; omega
  by_cases hht : q.m_head = q.m_tail
  · -- removing the only element: reset to the empty state
    refine ⟨{ q with m_head := (q.m_head + 1) % q.m_capacity,
                     m_tail := (q.m_head + 1) % q.m_capacity,
                     m_isEmpty := true }, ?_, ?_, rfl, rfl, ?_, ?_⟩
    · unfold pop
      rw [if_neg (by rw [hne]; simp), hval]
      simp only [_index_add]
      rw [if_pos (hiff.2 hht)]
    · exact ⟨hc, hlen, Nat.mod_lt _ (by omega), Nat.mod_lt _ (by omega), fun _ => rfl⟩
    · rw [empty_toList _ rfl]
      symm
      apply List.drop_eq_nil_of_le
      rw [toList_length]
      omega
    · exact fun _ => ⟨rfl, rfl⟩
  · -- at least two elements remain
    have hsz2 : 2 ≤ q._get_size := by
      have h1 : q._get_size ≠ 1 := fun hcon => hht (hsize1.1 hcon)
      omega
    refine ⟨{ q with m_head := (q.m_head + 1) % q.m_capacity }, ?_, ?_, rfl, rfl, ?_, ?_⟩
    · unfold pop
      rw [if_neg (by rw [hne]; simp), hval]
      simp only [_index_add]
      rw [if_neg (fun hcon => hht (hiff.1 hcon))]
    · exact ⟨hc, hlen, Nat.mod_lt _ (by omega), ht, fun hcon => absurd hcon (by rw [hne]; simp)⟩
    · -- contents: dropping the head element
      have hszq' : ({ q with m_head := (q.m_head + 1) % q.m_capacity}
          : circular_queue T)._get_size = q._get_size - 1 := by
        conv_lhs => unfold _get_size
        conv_rhs => unfold _get_size
        simp only [hne, Bool.false_eq_true, if_false]
        rw [succ_mod_eq _ _ hh]
        split_ifs <;> omega
      apply List.ext_getElem?
      intro i
      rw [toList_getElem?, List.getElem?_drop, toList_getElem?, hszq']
      simp only
      by_cases hi : i < q._get_size - 1
      · rw [if_pos hi, if_pos (by omega)]
        simp only [_at]
        congr 2
        rw [Nat.mod_add_mod, Nat.add_assoc, Nat.add_comm 1 i]
      · rw [if_neg hi, if_neg (by omega)]
    · intro h1; omega

/-- `pop` iterated a given number of times, collecting the returned values. -/
def popN : Nat → circular_queue T → List T × circular_queue T
  | 0, q => ([], q)
  | Nat.succ n, q =>
    match q.pop with
    | none => ([], q)
    | some (x, q') =>
      let r := popN n q'
      (x :: r.1, r.2)

theorem mkQueue_wf (BufSize : Nat) (h : 1 ≤ BufSize) : (mkQueue T BufSize).Wf := by
  refine ⟨h, ?_, h, h, fun _ => rfl⟩
  simp [mkQueue]

theorem mkQueue_toList (BufSize : Nat) : toList (mkQueue T BufSize) = [] :=
  empty_toList _ rfl

/-- Dropping elements from the front of the left list does not change the
last `C` elements of a concatenation, as long as at least `C` remain. -/
theorem drop_suffix_stable (C j : Nat) (l m : List T) (hj : j ≤ l.length)
    (hC : C + j ≤ l.length + m.length) :
    (l.drop j ++ m).drop ((l.drop j ++ m).length - C)
      = (l ++ m).drop ((l ++ m).length - C) := by
  rw [← List.drop_append_of_le_length hj, List.drop_drop]
  congr 1
  simp only [List.length_drop, List.length_append]
  omega

/-- Master lemma: pushing a list of values into a well-formed queue leaves
exactly the last `capacity` elements of `old contents ++ new values`. -/
theorem pushList_toList (vs : List T) (q : circular_queue T) (hwf : q.Wf) :
    (pushList q vs).Wf ∧ (pushList q vs).m_capacity = q.m_capacity ∧
    toList (pushList q vs) =
      (toList q ++ vs).drop ((toList q ++ vs).length - q.m_capacity) := by
  induction vs generalizing q with
  | nil =>
    refine ⟨hwf, rfl, ?_⟩
    have h1 : (toList q).length ≤ q.m_capacity := by
      rw [toList_length]; exact size_le_capacity q hwf
    simp only [pushList_nil, List.append_nil]
    rw [Nat.sub_eq_zero_of_le h1, List.drop_zero]
  | cons v rest ih =>
    rw [pushList_cons]
    obtain ⟨ihwf, ihcap, ihlist⟩ := ih (q.push_back v) (push_back_wf q v hwf)
    refine ⟨ihwf, by rw [ihcap, push_back_capacity], ?_⟩
    rw [ihlist, push_back_capacity, push_back_toList q v hwf]
    by_cases hfull : q._get_size = q.m_capacity
    · rw [if_pos hfull]
      have hlen1 : (toList q).length = q.m_capacity := by rw [toList_length, hfull]
      have h1 : ((toList q).drop 1 ++ [v]) ++ rest = (toList q).drop 1 ++ (v :: rest) := by
        rw [List.append_assoc, List.singleton_append]
      have hc := hwf.1
      rw [h1]
      exact drop_suffix_stable q.m_capacity 1 (toList q) (v :: rest)
        (by omega) (by simp only [List.length_cons]; omega)
    · rw [if_neg hfull]
      have h1 : ((toList q) ++ [v]) ++ rest = (toList q) ++ (v :: rest) := by
        rw [List.append_assoc, List.singleton_append]
      rw [h1]

/-- Master lemma for iterated `pop`: popping `size` times returns exactly
the contents, oldest first, and leaves an empty queue with `head = tail`. -/
theorem popN_spec (n : Nat) (q : circular_queue T) (hwf : q.Wf) (hn : q._get_size = n) :
    (popN n q).1 = toList q ∧ (popN n q).2.Wf ∧
    (popN n q).2.m_isEmpty = true ∧
    (popN n q).2.m_head = (popN n q).2.m_tail ∧
    (popN n q).2.m_capacity = q.m_capacity := by
  induction n generalizing q with
  | zero =>
    have hqe : q.m_isEmpty = true := by
      cases hqe2 : q.m_isEmpty with
      | true => rfl
      | false => have := size_pos_of_ne q hwf hqe2; omega
    exact ⟨(empty_toList q hqe).symm, hwf, hqe, hwf.2.2.2.2 hqe, rfl⟩
  | succ n ih =>
    have hne : q.m_isEmpty = false := by
      cases hqe2 : q.m_isEmpty with
      | false => rfl
      | true => have := size_of_empty q hqe2; omega
    obtain ⟨q', hpop, hwf', hcap', _hbuf', hlist', _hlast⟩ := pop_toList q hwf hne
    have hsz' : q'._get_size = n := by
      have := toList_length q'
      rw [hlist'] at this
      simp only [List.length_drop, toList_length] at this
      omega
    obtain ⟨ih1, ih2, ih3, ih4, ih5⟩ := ih q' hwf' hsz'
    have hstep : popN (n + 1) q = ((toList q).getD 0 default :: (popN n q').1, (popN n q').2) := by
      show (match q.pop with
            | none => ([], q)
            | some (x, q') => ((x :: (popN n q').1, (popN n q').2))) = _

      rw [hpop]
    refine ⟨?_, ?_, ?_, ?_, ?_⟩
    · rw [hstep]
      simp only
      rw [ih1, hlist']
      have hne2 : toList q ≠ [] := by
        intro hcon
        have := toList_length q
        rw [hcon] at this
        simp at this
        omega
      cases hl : toList q with
      | nil => exact absurd hl hne2
      | cons a as => simp
    · rw [hstep]; exact ih2
    · rw [hstep]; exact ih3
    · rw [hstep]; exact ih4
    · rw [hstep]; simp only; rw [ih5, hcap']

end circular_queue

theorem getD_set_ne_general {α : Type} (l : List α) (i j : Nat) (a d : α) (h : i ≠ j) :
    (l.set i a).getD j d = l.getD j d := by
  rw [List.getD_eq_getElem?_getD, List.getD_eq_getElem?_getD, List.getElem?_set_ne h]

theorem getD_append_left_general {α : Type} (l m : List α) (i : Nat) (d : α)
    (h : i < l.length) : (l ++ m).getD i d = l.getD i d := by
  rw [List.getD_eq_getElem?_getD, List.getD_eq_getElem?_getD,
    List.getElem?_append_left h]

theorem getD_append_length_general {α : Type} (l : List α) (x : α) (d : α) :
    (l ++ [x]).getD l.length d = x := by
  rw [List.getD_eq_getElem?_getD, List.getElem?_append_right (Nat.le_refl _)]
  simp

/-- Per-instance index state of a `circular_queue` whose storage is held
through a `shared_ptr`: `m_buffer` is the address of the pointed-to array
inside an explicit store of buffers. -/
structure circular_queue_ref where
  m_buffer   : Nat
  m_capacity : Nat
  m_head     : Nat
  m_tail     : Nat
  m_isEmpty  : Bool
deriving DecidableEq

/-- A world of two `circular_queue` instances — `qa` the source and `qb`
the copy — with the `shared_ptr` storage made explicit, so that aliasing
between the two instances (and the copy-on-write check of `push_back` /
`pop`) is observable.  This is the model used for the snapshot-semantics
claim about copy construction and assignment. -/
structure cq_world (T : Type) where
  store : List (List T)
  qa : circular_queue_ref
  qb : circular_queue_ref
deriving DecidableEq

namespace cq_world

variable {T : Type} [Inhabited T]

/-- Dereference an instance's buffer address in the store. -/
def bufAt (w : cq_world T) (r : circular_queue_ref) : List T :=
  w.store.getD r.m_buffer []

/-- The plain (single-instance) view of one instance of the world. -/
def toPlain (w : cq_world T) (r : circular_queue_ref) : circular_queue T :=
  ⟨bufAt w r, r.m_capacity, r.m_head, r.m_tail, r.m_isEmpty⟩

/-- `shared_ptr::use_count` of a buffer address among the two live
instances; `unique()` is `sharedCount = 1`. -/
def sharedCount (w : cq_world T) (addr : Nat) : Nat :=
  (if w.qa.m_buffer = addr then 1 else 0) + (if w.qb.m_buffer = addr then 1 else 0)

def ofPlain (addr : Nat) (q : circular_queue T) : circular_queue_ref :=
  ⟨addr, q.m_capacity, q.m_head, q.m_tail, q.m_isEmpty⟩

/-- Store the mutated instance back into the world: when the buffer was
shared (`!m_buffer.unique()` in the source) the mutation lands in a freshly
allocated clone (`m_buffer.reset(new buffer_type(*m_buffer))` followed by
the write), otherwise it happens in place. -/
def writeBack (w : cq_world T) (i : Bool) (oldAddr : Nat) (q' : circular_queue T) :
    cq_world T :=
  if 1 < sharedCount w oldAddr then
    { store := w.store ++ [q'.m_buffer]
      qa := if i then ofPlain w.store.length q' else w.qa
      qb := if i then w.qb else ofPlain w.store.length q' }
  else
    { store := w.store.set oldAddr q'.m_buffer
      qa := if i then ofPlain oldAddr q' else w.qa
      qb := if i then w.qb else ofPlain oldAddr q' }

/-- `push_back` on instance `a` (`i = true`) or `b` (`i = false`) of the
world, with the copy-on-write check of the source. -/
def pushW (w : cq_world T) (i : Bool) (v : T) : cq_world T :=
  let r := if i then w.qa else w.qb
  writeBack w i r.m_buffer ((toPlain w r).push_back v)

/-- `pop` on instance `a` or `b` of the world; a `none` result models the
fatal assertion on an empty queue (the process aborts, no state results). -/
def popW (w : cq_world T) (i : Bool) : cq_world T :=
  let r := cond i w.qa w.qb
  match (toPlain w r).pop with
  | none => w
  | some (_, q') => writeBack w i r.m_buffer q'

/-- Copy construction `circular_queue(const circular_queue& from)` of
instance `b` from instance `a`: the head/tail/empty/capacity state is
copied and the storage is cloned into a fresh buffer
(`m_buffer.reset(new buffer_type(*buffer))`).  `operator=` has the same
body, so `assignW` below is the same function. -/
def copyW (w : cq_world T) : cq_world T :=
  { store := w.store ++ [bufAt w w.qa]
    qa := w.qa
    qb := ofPlain w.store.length (toPlain w w.qa) }

/-- `operator=(const circular_queue& from)` assigning instance `a` into
instance `b`: same copied index state and fresh cloned storage as copy
construction. -/
def assignW (w : cq_world T) : cq_world T := copyW w

/-- Both instances hold valid store addresses. -/
def WfW (w : cq_world T) : Prop :=
  w.qa.m_buffer < w.store.length ∧ w.qb.m_buffer < w.store.length

instance (w : cq_world T) : Decidable w.WfW := by
  unfold WfW; infer_instance

theorem writeBack_frame_qb (w : cq_world T) (oldAddr : Nat) (q' : circular_queue T)
    (hwfb : w.qb.m_buffer < w.store.length) (hne : oldAddr ≠ w.qb.m_buffer) :
    toPlain (writeBack w true oldAddr q') (writeBack w true oldAddr q').qb
      = toPlain w w.qb := by
  unfold writeBack toPlain bufAt
  split
  · simp only [if_pos True.intro]
    rw [getD_append_left_general _ _ _ _ hwfb]
  · simp only [if_pos True.intro]
    rw [getD_set_ne_general _ _ _ _ _ hne]

theorem writeBack_frame_qa (w : cq_world T) (oldAddr : Nat) (q' : circular_queue T)
    (hwfa : w.qa.m_buffer < w.store.length) (hne : oldAddr ≠ w.qa.m_buffer) :
    toPlain (writeBack w false oldAddr q') (writeBack w false oldAddr q').qa
      = toPlain w w.qa := by
  unfold writeBack toPlain bufAt
  split
  · simp only [if_neg (show ¬(false = true) by simp)]
    rw [getD_append_left_general _ _ _ _ hwfa]
  · simp only [if_neg (show ¬(false = true) by simp)]
    rw [getD_set_ne_general _ _ _ _ _ hne]

end cq_world

/-- Round-to-nearest, ties-to-even of the exact quotient `p / q` to an
integer: the rounding used by IEEE 754 division.  `fl` is the floor, `r`
the remainder; a remainder above half rounds up, below half rounds down,
and an exact half goes to the even neighbour. -/
def roundHE (p q : Nat) : Nat :=
  let fl := p / q
  let r := p % q
  if 2 * r < q then fl
  else if q < 2 * r then fl + 1
  else if fl % 2 = 0 then fl else fl + 1

/-- Binade of the positive rational `a / b`: the unique `e` with
`2 ^ e ≤ a / b < 2 ^ (e + 1)`, computed from the bit lengths of `a` and
`b` with one comparison to settle the off-by-one. -/
def fpExp2 (a b : Nat) : Int :=
  let k : Int := Nat.log2 a
  let m : Int := Nat.log2 b
  if k ≥ m then (if a < 2 ^ (k - m).toNat * b then k - m - 1 else k - m)
  else (if a * 2 ^ (m - k).toNat < b then k - m - 1 else k - m)

/-- Correctly rounded binary floating-point quotient `a / b`, as a pair
(significand, exponent) with value `significand * 2 ^ exponent`: the
quotient is scaled into the binade `[2^52, 2^53)` and rounded to nearest,
ties to even — exactly IEEE 754 binary64 (`double`) division of two
exactly representable operands, in the unbounded-exponent regime (for the
quotients of two `size_t` counters the binade is within `±64`, far inside
binary64's exponent range, so no overflow, underflow or subnormals arise
and the model coincides with binary64).  A zero operand gives value `0`
(the C++ `0 / 0` is NaN and `x / 0` is infinity; the spec leaves the
`get_count = 0` case undefined, so no claim touches it). -/
def fpFrac (a b : Nat) : Nat × Int :=
  if a = 0 ∨ b = 0 then (0, 0)
  else
    let e := fpExp2 a b
    (roundHE (a * 2 ^ (52 - e).toNat) (b * 2 ^ (e - 52).toNat), e - 52)

/-- Exact rational value of a floating-point pair. -/
def fpVal (p : Nat × Int) : ℚ := (p.1 : ℚ) * 2 ^ p.2

/-- Embedding of `static_cast<double>` on a counter: round the natural
number to binary64.  For counters below `2 ^ 53` the conversion is exact. -/
def fpOfNat (x : Nat) : Nat × Int := fpFrac x 1

/-- Binary64 division of two floating-point pairs: the correctly rounded
quotient of the significands, with the exponent difference added on. -/
def fpDiv (x y : Nat × Int) : Nat × Int :=
  ((fpFrac x.1 y.1).1, (fpFrac x.1 y.1).2 + (x.2 - y.2))

/-- A rational is exactly representable in binary64 (unbounded exponent):
it is `m * 2 ^ e` for a significand `m` of at most 53 bits. -/
def FpRepresentable (q : ℚ) : Prop :=
  ∃ (m : ℕ) (e : ℤ), m < 2 ^ 53 ∧ q = (m : ℚ) * 2 ^ e

theorem two_ne : (2:ℚ) ≠ 0 := by norm_num

theorem npow_cast_eq_zpow (n : ℕ) : ((2 ^ n : ℕ) : ℚ) = (2:ℚ) ^ (n : ℤ) := by
  push_cast
  rw [zpow_natCast]

/-- `fpExp2` returns the true binade: `2 ^ e ≤ a / b < 2 ^ (e + 1)`. -/
theorem fpExp2_spec (a b : Nat) (ha : 0 < a) (hb : 0 < b) :
    (2:ℚ) ^ fpExp2 a b ≤ (a:ℚ) / b ∧ (a:ℚ) / b < 2 ^ (fpExp2 a b + 1) := by
  have hb0 : (0:ℚ) < b := by exact_mod_cast hb
  have hka : (2:ℚ) ^ ((Nat.log2 a : ℤ)) ≤ a := by
    rw [zpow_natCast]
    exact_mod_cast Nat.log2_self_le (Nat.pos_iff_ne_zero.1 ha)
  have hka2 : (a:ℚ) < 2 ^ ((Nat.log2 a : ℤ) + 1) := by
    have h := @Nat.lt_log2_self a
    have : ((Nat.log2 a : ℤ)) + 1 = ((Nat.log2 a + 1 : ℕ) : ℤ) := by push_cast; ring
    rw [this, zpow_natCast]
    exact_mod_cast h
  have hmb : (2:ℚ) ^ ((Nat.log2 b : ℤ)) ≤ b := by
    rw [zpow_natCast]
    exact_mod_cast Nat.log2_self_le (Nat.pos_iff_ne_zero.1 hb)
  have hmb2 : (b:ℚ) < 2 ^ ((Nat.log2 b : ℤ) + 1) := by
    have h := @Nat.lt_log2_self b
    have : ((Nat.log2 b : ℤ)) + 1 = ((Nat.log2 b + 1 : ℕ) : ℤ) := by push_cast; ring
    rw [this, zpow_natCast]
    exact_mod_cast h
  set k : ℤ := (Nat.log2 a : ℤ)
  set m : ℤ := (Nat.log2 b : ℤ)
  have hub : (a:ℚ)/b < 2 ^ (k - m + 1) := by
    rw [div_lt_iff hb0]
    calc (a:ℚ) < 2 ^ (k + 1) := hka2
      _ = 2 ^ (k - m + 1) * 2 ^ m := by
          rw [← zpow_add₀ two_ne]; congr 1; ring
      _ ≤ 2 ^ (k - m + 1) * b := by
          exact mul_le_mul_of_nonneg_left hmb (le_of_lt (zpow_pos (by norm_num) _))
  have hlb : (2:ℚ) ^ (k - m - 1) < (a:ℚ)/b := by
    rw [lt_div_iff hb0]
    calc (2:ℚ) ^ (k - m - 1) * b < 2 ^ (k - m - 1) * 2 ^ (m + 1) :=
          mul_lt_mul_of_pos_left hmb2 (zpow_pos (by norm_num) _)
      _ = 2 ^ k := by rw [← zpow_add₀ two_ne]; congr 1; ring
      _ ≤ a := hka
  have hcond : ∀ hkm : True,
      ((if k ≥ m then (a < 2 ^ (k - m).toNat * b) else (a * 2 ^ (m - k).toNat < b))
        ↔ (a:ℚ)/b < 2 ^ (k - m)) := by
    intro _
    by_cases hkm : k ≥ m
    · rw [if_pos hkm]
      have hd : ((k - m).toNat : ℤ) = k - m := Int.toNat_of_nonneg (by omega)
      rw [div_lt_iff hb0, ← hd, zpow_natCast]
      constructor
      · intro h
        calc (a:ℚ) < ((2 ^ (k - m).toNat * b : ℕ) : ℚ) := by exact_mod_cast h
          _ = 2 ^ (k - m).toNat * b := by push_cast; ring
      · intro h
        have : (a:ℚ) < ((2 ^ (k - m).toNat * b : ℕ) : ℚ) := by
          calc (a:ℚ) < 2 ^ (k - m).toNat * b := h
            _ = ((2 ^ (k - m).toNat * b : ℕ) : ℚ) := by push_cast; ring
        exact_mod_cast this
    · rw [if_neg hkm]
      have hd : ((m - k).toNat : ℤ) = m - k := Int.toNat_of_nonneg (by omega)
      have h2 : (2:ℚ) ^ (k - m) = ((2 ^ (m - k).toNat : ℕ) : ℚ)⁻¹ := by
        have hcast : ((2 ^ (m - k).toNat : ℕ) : ℚ) = (2:ℚ) ^ (m - k) := by
          push_cast
          rw [← zpow_natCast (2:ℚ) (m - k).toNat, hd]
        rw [hcast, ← zpow_neg, show -(m - k) = k - m by ring]
      rw [h2, div_lt_iff hb0]
      rw [show (((2:ℕ) ^ (m - k).toNat : ℕ) : ℚ)⁻¹ * (b:ℚ)
            = (b:ℚ) / ((2 ^ (m - k).toNat : ℕ) : ℚ) by ring]
      rw [lt_div_iff (by positivity)]
      constructor
      · intro h
        exact_mod_cast h
      · intro h
        exact_mod_cast h
  unfold fpExp2
  by_cases hkm : k ≥ m
  · rw [if_pos hkm]
    by_cases hc : a < 2 ^ (k - m).toNat * b
    · rw [if_pos hc]
      have hq := (hcond trivial).1 (by rwa [if_pos hkm])
      exact ⟨le_of_lt (by calc (2:ℚ) ^ (k - m - 1) < _ := hlb), by
        rw [show k - m - 1 + 1 = k - m by ring]; exact hq⟩
    · rw [if_neg hc]
      have hq : ¬ ((a:ℚ)/b < 2 ^ (k - m)) := fun hcon =>
        hc (by have := (hcond trivial).2 hcon; rwa [if_pos hkm] at this)
      exact ⟨not_lt.1 hq, hub⟩
  · rw [if_neg hkm]
    by_cases hc : a * 2 ^ (m - k).toNat < b
    · rw [if_pos hc]
      have hq := (hcond trivial).1 (by rwa [if_neg hkm])
      exact ⟨le_of_lt hlb, by rw [show k - m - 1 + 1 = k - m by ring]; exact hq⟩
    · rw [if_neg hc]
      have hq : ¬ ((a:ℚ)/b < 2 ^ (k - m)) := fun hcon =>
        hc (by have := (hcond trivial).2 hcon; rwa [if_neg hkm] at this)
      exact ⟨not_lt.1 hq, hub⟩

/-- When the quotient is exact, round-to-nearest-even returns it. -/
theorem roundHE_of_dvd (p q : ℕ) (hq : 0 < q) (hdvd : q ∣ p) : roundHE p q = p / q := by
  unfold roundHE
  have hr : p % q = 0 := Nat.mod_eq_zero_of_dvd hdvd
  rw [hr, if_pos (by omega : 2 * 0 < q)]

/-- Exactness of correctly rounded division: whenever the true quotient
`a / b` is representable in 53 significand bits, `fpFrac` returns it
exactly (the scaled division comes out with remainder zero, so rounding
does not move it). -/
theorem fpFrac_exact (a b : ℕ) (ha : 0 < a) (hb : 0 < b)
    (hrep : FpRepresentable ((a:ℚ)/b)) : fpVal (fpFrac a b) = (a:ℚ)/b := by
  obtain ⟨mm, f, hm53, hqe⟩ := hrep
  have hb0 : (0:ℚ) < b := by exact_mod_cast hb
  have ha0 : (0:ℚ) < a := by exact_mod_cast ha
  have hq0 : (0:ℚ) < (a:ℚ)/b := div_pos ha0 hb0
  have hmpos : 0 < mm := by
    rcases Nat.eq_zero_or_pos mm with h0 | h0
    · rw [h0] at hqe
      simp at hqe
      rcases hqe with h | h <;> omega
    · exact h0
  obtain ⟨hlo, hhi⟩ := fpExp2_spec a b ha hb
  set e := fpExp2 a b with he
  have hm53q : (mm:ℚ) < (2:ℚ) ^ ((53:ℕ) : ℤ) := by
    rw [← npow_cast_eq_zpow]
    exact_mod_cast hm53
  have hA : e ≤ f + 52 := by
    by_contra hcon
    push_neg at hcon
    have h1 : (2:ℚ) ^ (f + 53) ≤ 2 ^ e :=
      (zpow_le_zpow_iff_right₀ (by norm_num)).2 (by omega)
    have h2 : ((a:ℚ)/b) < 2 ^ (f + 53) := by
      rw [hqe]
      calc (mm:ℚ) * 2 ^ f < 2 ^ ((53:ℕ):ℤ) * 2 ^ f :=
            mul_lt_mul_of_pos_right hm53q (zpow_pos (by norm_num) _)
        _ = 2 ^ (f + 53) := by
            rw [← zpow_add₀ two_ne]
            congr 1
            omega
    exact absurd (lt_of_lt_of_le h2 (le_trans h1 hlo)) (lt_irrefl _)
  set u := (52 - e).toNat with hudef
  set v := (e - 52).toNat with hvdef
  set t := (f + 52 - e).toNat with htdef
  have hut : (u : ℤ) - v = 52 - e := by omega
  have htt : (t : ℤ) = f + 52 - e := by omega
  have hab : (a:ℚ) = mm * 2 ^ f * b := by
    field_simp at hqe
    linarith [hqe]
  set N : ℕ := mm * 2 ^ t with hN
  have hzz : (2:ℚ) ^ f * 2 ^ ((u:ℕ):ℤ) = 2 ^ ((t:ℕ):ℤ) * 2 ^ ((v:ℕ):ℤ) := by
    rw [← zpow_add₀ two_ne, ← zpow_add₀ two_ne]
    congr 1
    omega
  have hs : ((a * 2 ^ u : ℕ) : ℚ) = (N : ℚ) * ((b * 2 ^ v : ℕ) : ℚ) := by
    push_cast [hN]
    rw [show ((2:ℚ) ^ u) = (2:ℚ) ^ ((u:ℕ):ℤ) from (zpow_natCast _ _).symm,
        show ((2:ℚ) ^ v) = (2:ℚ) ^ ((v:ℕ):ℤ) from (zpow_natCast _ _).symm,
        show ((2:ℚ) ^ t) = (2:ℚ) ^ ((t:ℕ):ℤ) from (zpow_natCast _ _).symm,
        hab]
    calc (mm:ℚ) * 2 ^ f * b * 2 ^ ((u:ℕ):ℤ)
        = ((mm:ℚ) * b) * ((2:ℚ) ^ f * 2 ^ ((u:ℕ):ℤ)) := by ring
      _ = ((mm:ℚ) * b) * ((2:ℚ) ^ ((t:ℕ):ℤ) * 2 ^ ((v:ℕ):ℤ)) := by rw [hzz]
      _ = (mm:ℚ) * 2 ^ ((t:ℕ):ℤ) * ((b:ℚ) * 2 ^ ((v:ℕ):ℤ)) := by ring
  have hsn : a * 2 ^ u = N * (b * 2 ^ v) := by exact_mod_cast hs
  have hq'pos : 0 < b * 2 ^ v := by positivity
  have hdvd : (b * 2 ^ v) ∣ (a * 2 ^ u) := ⟨N, by rw [hsn, Nat.mul_comm]⟩
  have hdiv : (a * 2 ^ u) / (b * 2 ^ v) = N := by
    rw [hsn]
    exact Nat.mul_div_cancel N hq'pos
  rw [show fpFrac a b = (roundHE (a * 2 ^ u) (b * 2 ^ v), e - 52) from by
        rw [fpFrac, if_neg (by push_neg; exact ⟨by omega, by omega⟩)]]
  simp only [fpVal]
  rw [roundHE_of_dvd _ _ hq'pos hdvd, hdiv, hqe]
  push_cast [hN]
  rw [show ((2:ℚ) ^ t) = (2:ℚ) ^ ((t:ℕ):ℤ) from (zpow_natCast _ _).symm]
  rw [mul_assoc, ← zpow_add₀ two_ne]
  congr 1
  congr 1
  omega

theorem FpRepresentable_scale (q : ℚ) (k : ℤ) (h : FpRepresentable q) :
    FpRepresentable (q * 2 ^ k) := by
  obtain ⟨m, e, hm, hq⟩ := h
  exact ⟨m, e + k, hm, by rw [hq, mul_assoc, ← zpow_add₀ two_ne]⟩

/-- Conversion of a counter below `2 ^ 53` to binary64 is exact, and the
significand of a positive counter is positive. -/
theorem fpOfNat_spec (x : ℕ) (hx : 0 < x) (h53 : x < 2 ^ 53) :
    fpVal (fpOfNat x) = x ∧ 0 < (fpOfNat x).1 := by
  have hval : fpVal (fpOfNat x) = x := by
    have h := fpFrac_exact x 1 hx one_pos ⟨x, 0, h53, by norm_num⟩
    simpa [fpOfNat] using h
  refine ⟨hval, ?_⟩
  rcases Nat.eq_zero_or_pos (fpOfNat x).1 with h0 | h0
  · exfalso
    have hx0 : (x:ℚ) = 0 := by
      rw [← hval]
      simp [fpVal, h0]
    have : x = 0 := by exact_mod_cast hx0
    omega
  · exact h0

/-- Binary64 division of two exactly converted counters returns the true
quotient exactly whenever that quotient is representable. -/
theorem fpDiv_ofNat_exact (h g : ℕ) (hg : 0 < g) (hh53 : h < 2 ^ 53)
    (hg53 : g < 2 ^ 53) (hrep : FpRepresentable ((h:ℚ)/g)) :
    fpVal (fpDiv (fpOfNat h) (fpOfNat g)) = (h:ℚ)/g := by
  rcases Nat.eq_zero_or_pos h with h0 | hh
  · subst h0
    simp [fpDiv, fpOfNat, fpFrac, fpVal]
  obtain ⟨hvh, hph⟩ := fpOfNat_spec h hh hh53
  obtain ⟨hvg, hpg⟩ := fpOfNat_spec g hg hg53
  set p := fpOfNat h with hpdef
  set q := fpOfNat g with hqdef
  have hkey : (h:ℚ)/g = ((p.1:ℚ)/(q.1:ℚ)) * 2 ^ (p.2 - q.2) := by
    rw [← hvh, ← hvg]
    simp only [fpVal]
    rw [zpow_sub₀ two_ne, div_mul_div_comm]
  have hrep' : FpRepresentable ((p.1:ℚ)/(q.1:ℚ)) := by
    have hsc := FpRepresentable_scale _ (q.2 - p.2) hrep
    have heq : ((h:ℚ)/g) * 2 ^ (q.2 - p.2) = (p.1:ℚ)/(q.1:ℚ) := by
      rw [hkey, mul_assoc, ← zpow_add₀ two_ne,
          show p.2 - q.2 + (q.2 - p.2) = 0 by ring, zpow_zero, mul_one]
    rwa [heq] at hsc
  have hfr := fpFrac_exact p.1 q.1 hph hpg hrep'
  have hdv : fpVal (fpDiv p q) = fpVal (fpFrac p.1 q.1) * 2 ^ (p.2 - q.2) := by
    simp only [fpDiv, fpVal]
    rw [zpow_add₀ two_ne]
    ring
  rw [hdv, hfr, ← hkey]

set_option maxRecDepth 4000 in
/-- Concrete binary64 evaluation: one hit out of three gets rounds to the
64-bit double nearest 1/3, with significand 6004799503160661 =
round(2 ^ 54 / 3). -/
theorem fpDiv_one_three : fpDiv (fpOfNat 1) (fpOfNat 3) = (6004799503160661, -54) := by
  have h1 : fpOfNat 1 = (2 ^ 52, -52) := by
    simp [fpOfNat, fpFrac, fpExp2, roundHE, Nat.log2]
  have h3 : fpOfNat 3 = (3 * 2 ^ 51, -51) := by
    simp [fpOfNat, fpFrac, fpExp2, roundHE, Nat.log2]
  rw [fpDiv, h1, h3]
  have he : fpExp2 (2 ^ 52) (3 * 2 ^ 51) = -1 := by
    norm_num [fpExp2, Nat.log2]
  have hfr : fpFrac (2 ^ 52) (3 * 2 ^ 51) = (roundHE (2 ^ 105) (3 * 2 ^ 51), -53) := by
    rw [fpFrac, if_neg (by norm_num), he]
    simp only [show ((52:Int) - -1) = 53 from by decide, show ((-1:Int) - 52) = -53 from by decide,
               show (53:Int).toNat = 53 from by decide, show ((-53:Int)).toNat = 0 from by decide]
    norm_num
  have hr : roundHE (2 ^ 105) (3 * 2 ^ 51) = 6004799503160661 := by
    simp [roundHE]
  rw [hfr, hr]
  norm_num

/-- Embedding of `LRU_cache<Key, Value>::Stats`. -/
structure Stats where
  m_get_cnt : Nat
  m_hit_cnt : Nat
deriving DecidableEq

/-- Embedding of `LRU_cache<Key, Value>`.  `m_list` is
`std::list<std::pair<Key, value_ptr_type>>` with head = most recently used
(the `shared_ptr` value handle is identified with the value it points to).
`m_hash_table` is `std::unordered_map<Key, iterator>`; an iterator is a
pointer to the unique list node holding that key, so the table is embedded
as its key list — its codomain is recovered by key lookup in `m_list`, which
is exactly the node the iterator designates whenever the two structures are
consistent.  `size_t` counters become `Nat`. -/
structure LRU_cache (K V : Type) where
  m_list : List (K × V)
  m_hash_table : List K
  m_max_size : Nat
  m_max_memory_size : Nat
  m_stats : Stats
deriving DecidableEq

namespace LRU_cache

variable {K V : Type} [DecidableEq K]

/-- Embedding of the constructor `LRU_cache(size_type Size)`:
`m_max_memory_size` is `0` (memory-based eviction disabled), counters zero,
containers empty. -/
def mkCache (K V : Type) (Size : Nat) : LRU_cache K V :=
  { m_list := [], m_hash_table := [], m_max_size := Size, m_max_memory_size := 0
    m_stats := { m_get_cnt := 0, m_hit_cnt := 0 } }

/-- Embedding of the constructor `LRU_cache(size_type Size, size_type MemorySize)`. -/
def mkCacheMem (K V : Type) (Size MemorySize : Nat) : LRU_cache K V :=
  { m_list := [], m_hash_table := [], m_max_size := Size
    m_max_memory_size := MemorySize
    m_stats := { m_get_cnt := 0, m_hit_cnt := 0 } }

/-- Embedding of `_get_cache_size`: the hash table's size. -/
def _get_cache_size (c : LRU_cache K V) : Nat := c.m_hash_table.length

/-- Embedding of `_get_memory_size`: element count times `sizeof(value_type)`;
the fixed compile-time constant `sizeof(value_type)` is the parameter
`sizeofV`. -/
def _get_memory_size (sizeofV : Nat) (c : LRU_cache K V) : Nat :=
  c._get_cache_size * sizeofV

/-- Embedding of `_discard_one_elem`: erase the last list node's key from
the hash table and the node itself from the list.  On an empty list the C++
(`end()--`) is undefined behaviour; that case is unreachable from the
eviction guard and modelled as a no-op. -/
def _discard_one_elem (c : LRU_cache K V) : LRU_cache K V :=
  match c.m_list.getLast? with
  | none => c
  | some last =>
    { c with m_hash_table := c.m_hash_table.erase last.1
             m_list := c.m_list.dropLast }

/-- The eviction condition of `push`: `_get_cache_size() > m_max_size ||
(m_max_memory_size != 0 && _get_memory_size() > m_max_memory_size)`. -/
def _should_evict (sizeofV : Nat) (c : LRU_cache K V) : Bool :=
  decide (c._get_cache_size > c.m_max_size) ||
    (decide (c.m_max_memory_size ≠ 0) &&
      decide (_get_memory_size sizeofV c > c.m_max_memory_size))

/-- The insert/update phase of `push`: a new key is pushed at the front of
the list and indexed; an existing key's node gets its value replaced
(`ite->second->second = value`) and is spliced to the front. -/
def _push_insert (c : LRU_cache K V) (key : K) (value : V) : LRU_cache K V :=
  if c.m_hash_table.contains key = false then
    { c with m_list := (key, value) :: c.m_list
             m_hash_table := key :: c.m_hash_table }
  else
    { c with m_list := (key, value) :: c.m_list.eraseP (fun p => p.1 == key) }

/-- Embedding of `push`: insert/update, then run the eviction step exactly
once. -/
def push (sizeofV : Nat) (c : LRU_cache K V) (key : K) (value : V) : LRU_cache K V :=
  let c1 := _push_insert c key value
  if _should_evict sizeofV c1 then _discard_one_elem c1 else c1

/-- Embedding of `get`: always increments `m_get_cnt`; on a hit increments
`m_hit_cnt`, splices the node to the front and returns its value; on a miss
returns `none` (the C++ `false`) with no further change. -/
def get (c : LRU_cache K V) (key : K) : Option V × LRU_cache K V :=
  let c1 := { c with m_stats := { c.m_stats with m_get_cnt := c.m_stats.m_get_cnt + 1 } }
  if c1.m_hash_table.contains key = false then (none, c1)
  else
    match c1.m_list.find? (fun p => p.1 == key) with
    | some p =>
      (some p.2,
        { c1 with
          m_stats := { c1.m_stats with m_hit_cnt := c1.m_stats.m_hit_cnt + 1 }
          m_list := p :: c1.m_list.eraseP (fun q => q.1 == key) })
    | none => (none, c1)

/-- Embedding of `exists`: a pure membership test on the hash table. -/
def «exists» (c : LRU_cache K V) (key : K) : Bool :=
  c.m_hash_table.contains key

/-- Embedding of `get_hit_rate`:
`static_cast<double>(m_hit_cnt) / static_cast<double>(m_get_cnt)`.  Each
counter is converted to binary64 (`fpOfNat`, exact below `2 ^ 53`) and the
division is IEEE correctly rounded binary64 division (`fpDiv`: round to
nearest, ties to even); the result is read back as its exact rational
value. -/
def get_hit_rate (c : LRU_cache K V) : ℚ :=
  fpVal (fpDiv (fpOfNat c.m_stats.m_hit_cnt) (fpOfNat c.m_stats.m_get_cnt))

/-- Embedding of `reset_stats`: zero both counters, touch nothing else. -/
def reset_stats (c : LRU_cache K V) : LRU_cache K V :=
  { c with m_stats := { m_get_cnt := 0, m_hit_cnt := 0 } }

/-- Mutual consistency of index and recency list: the hash table holds
exactly the keys of the list (as a permutation — every indexed key has
exactly one list node and every node's key is indexed exactly once), and
keys are not duplicated. -/
def consistent (c : LRU_cache K V) : Prop :=
  c.m_hash_table.Perm (c.m_list.map Prod.fst) ∧ (c.m_list.map Prod.fst).Nodup

instance (c : LRU_cache K V) : Decidable c.consistent := by
  unfold consistent; infer_instance

/-- Cache states reachable by the public API from either constructor.
`exists` and `get_hit_rate` are `const` members returning values, not
states, so they need no constructor here. -/
inductive Reachable (K V : Type) [DecidableEq K] : LRU_cache K V → Prop where
  | mk_size (Size : Nat) : Reachable K V (mkCache K V Size)
  | mk_size_memory (Size MemorySize : Nat) :
      Reachable K V (mkCacheMem K V Size MemorySize)
  | push (sizeofV : Nat) (key : K) (value : V) (c : LRU_cache K V) :
      Reachable K V c → Reachable K V (push sizeofV c key value)
  | get (key : K) (c : LRU_cache K V) :
      Reachable K V c → Reachable K V (get c key).2
  | reset_stats (c : LRU_cache K V) :
      Reachable K V c → Reachable K V (reset_stats c)

theorem contains_iff_mem_key (l : List K) (k : K) :
    l.contains k = true ↔ k ∈ l := by
  simp [List.contains, List.elem_iff]

/-- Any list with an occurrence of `k` is a permutation of `k` consed onto
the list with that (first) occurrence erased. -/
theorem perm_cons_eraseP_key (k : K) (l : List K) (h : k ∈ l) :
    l.Perm (k :: l.eraseP (· == k)) := by
  induction l with
  | nil => cases h
  | cons a as ih =>
    by_cases hak : a = k
    · subst hak
      rw [List.eraseP_cons_of_pos (by simp)]
    · rw [List.eraseP_cons_of_neg (by simp [hak])]
      have hk : k ∈ as := by
        cases h with
        | head => exact absurd rfl hak
        | tail _ h2 => exact h2
      exact ((ih hk).cons a).trans (List.Perm.swap k a _)

theorem keys_eraseP (k : K) (l : List (K × V)) :
    (l.eraseP (fun p => p.1 == k)).map Prod.fst = (l.map Prod.fst).eraseP (· == k) := by
  induction l with
  | nil => rfl
  | cons a as ih =>
    by_cases h : a.1 = k
    · rw [List.eraseP_cons_of_pos (by simp [h]), List.map_cons,
        List.eraseP_cons_of_pos (by simp [h])]
    · rw [List.eraseP_cons_of_neg (by simp [h]), List.map_cons, List.map_cons,
        List.eraseP_cons_of_neg (by simp [h]), ih]

theorem consistent_push_insert (c : LRU_cache K V) (k : K) (v : V)
    (h : c.consistent) : (_push_insert c k v).consistent := by
  obtain ⟨hperm, hnodup⟩ := h
  unfold _push_insert
  by_cases hc : c.m_hash_table.contains k = false
  · rw [if_pos hc]
    have hnmem : k ∉ c.m_list.map Prod.fst := by
      intro hmem
      have : k ∈ c.m_hash_table := hperm.mem_iff.2 hmem
      rw [← contains_iff_mem_key] at this
      rw [hc] at this
      cases this
    refine ⟨by simpa using hperm.cons k, ?_⟩
    rw [List.map_cons]
    exact List.nodup_cons.2 ⟨hnmem, hnodup⟩
  · rw [if_neg hc]
    have hmem : k ∈ c.m_list.map Prod.fst := by
      have h1 : c.m_hash_table.contains k = true := by
        revert hc; cases c.m_hash_table.contains k <;> simp
      exact hperm.mem_iff.1 ((contains_iff_mem_key _ _).1 h1)
    have hp := perm_cons_eraseP_key k _ hmem
    constructor
    · simp only [List.map_cons, keys_eraseP]
      exact hperm.trans hp
    · simp only [List.map_cons, keys_eraseP]
      exact hp.nodup hnodup

/-- `_push_insert` leaves the list non-empty and changes the table size by
one exactly when the key is new. -/
theorem push_insert_cache_size (c : LRU_cache K V) (k : K) (v : V) :
    (_push_insert c k v).m_list ≠ [] ∧
    ((_push_insert c k v)._get_cache_size =
      if c.m_hash_table.contains k = false then c._get_cache_size + 1
      else c._get_cache_size) := by
  unfold _push_insert _get_cache_size
  by_cases hc : c.m_hash_table.contains k = false
  · rw [if_pos hc]
    exact ⟨by simp, by rw [if_pos hc]; simp [Nat.add_comm]⟩
  · rw [if_neg hc]
    exact ⟨by simp, by rw [if_neg hc]⟩

/-- Full characterisation of `_discard_one_elem` on a consistent state with
a non-empty list: it removes exactly the last (least-recently-used) list
node and exactly its key from the table. -/
theorem discard_spec (c : LRU_cache K V) (h : c.consistent) (hne : c.m_list ≠ []) :
    ∃ last, c.m_list.getLast? = some last ∧
      (_discard_one_elem c).m_list = c.m_list.dropLast ∧
      (_discard_one_elem c).m_hash_table = c.m_hash_table.erase last.1 ∧
      (_discard_one_elem c).consistent ∧
      (_discard_one_elem c)._get_cache_size = c._get_cache_size - 1 ∧
      last.1 ∉ (_discard_one_elem c).m_hash_table ∧
      (_discard_one_elem c).m_max_size = c.m_max_size := by
  obtain ⟨hperm, hnodup⟩ := h
  have hlast : c.m_list.getLast? = some (c.m_list.getLast hne) :=
    List.getLast?_eq_getLast c.m_list hne
  set last := c.m_list.getLast hne with hlastdef
  have hdec : c.m_list.dropLast ++ [last] = c.m_list :=
    List.dropLast_concat_getLast hne
  have hkeys : (c.m_list.map Prod.fst) =
      (c.m_list.dropLast.map Prod.fst) ++ [last.1] := by
    conv_lhs => rw [← hdec]
    simp
  have hkeysnd := hnodup
  rw [hkeys] at hkeysnd
  have hnin : last.1 ∉ c.m_list.dropLast.map Prod.fst := by
    intro hcon
    have := List.disjoint_of_nodup_append hkeysnd hcon
    simp at this
  have herase : (c.m_list.map Prod.fst).erase last.1
      = c.m_list.dropLast.map Prod.fst := by
    rw [hkeys, List.erase_append_right _ hnin, List.erase_cons_head, List.append_nil]
  have hdisc : _discard_one_elem c =
      { c with m_hash_table := c.m_hash_table.erase last.1
               m_list := c.m_list.dropLast } := by
    unfold _discard_one_elem
    rw [hlast]
  have hperm' : (c.m_hash_table.erase last.1).Perm (c.m_list.dropLast.map Prod.fst) := by
    rw [← herase]
    exact hperm.erase last.1
  refine ⟨last, hlast, by rw [hdisc], by rw [hdisc], ?_, ?_, ?_, by rw [hdisc]⟩
  · rw [hdisc]
    refine ⟨by simpa using hperm', ?_⟩
    simp only
    rw [List.map_dropLast]
    exact hnodup.sublist (List.dropLast_sublist _)
  · rw [hdisc]
    unfold _get_cache_size
    simp only
    rw [hperm'.length_eq, hperm.length_eq, hkeys]
    simp
  · rw [hdisc]
    simp only
    intro hcon
    exact hnin (hperm'.mem_iff.1 hcon)

/-- On a consistent state with no duplicate keys, `find?` by key returns
exactly the unique entry with that key. -/
theorem find?_key_of_mem (k : K) (v : V) (l : List (K × V))
    (hnd : (l.map Prod.fst).Nodup) (hmem : (k, v) ∈ l) :
    l.find? (fun p => p.1 == k) = some (k, v) := by
  induction l with
  | nil => cases hmem
  | cons a as ih =>
    cases hmem with
    | head =>
      rw [List.find?_cons_of_pos _ (by simp)]
    | tail _ h2 =>
      have hknotin : a.1 ≠ k := by
        intro hcon
        have : k ∈ as.map Prod.fst := List.mem_map.2 ⟨(k, v), h2, rfl⟩
        simp only [List.map_cons, List.nodup_cons] at hnd
        rw [hcon] at hnd
        exact hnd.1 this
      rw [List.find?_cons_of_neg _ (by simp [hknotin])]
      exact ih (by simp only [List.map_cons, List.nodup_cons] at hnd; exact hnd.2) h2

theorem mem_of_contains_key (c : LRU_cache K V) (k : K) (h : c.consistent)
    (hc : c.m_hash_table.contains k = true) : ∃ v, (k, v) ∈ c.m_list := by
  have hmem : k ∈ c.m_list.map Prod.fst :=
    h.1.mem_iff.1 ((contains_iff_mem_key _ _).1 hc)
  obtain ⟨p, hp, hpk⟩ := List.mem_map.1 hmem
  exact ⟨p.2, by rw [← hpk]; exact hp⟩

theorem consistent_get (c : LRU_cache K V) (k : K) (h : c.consistent) :
    ((LRU_cache.get c k).2).consistent ∧ ((LRU_cache.get c k).2).m_hash_table = c.m_hash_table ∧
    ((LRU_cache.get c k).2).m_max_size = c.m_max_size := by
  unfold get
  by_cases hc : c.m_hash_table.contains k = false
  · rw [if_pos hc]
    exact ⟨h, rfl, rfl⟩
  · rw [if_neg hc]
    have hc2 : c.m_hash_table.contains k = true := by
      revert hc; cases c.m_hash_table.contains k <;> simp
    obtain ⟨v, hv⟩ := mem_of_contains_key c k h hc2
    rw [find?_key_of_mem k v c.m_list h.2 hv]
    obtain ⟨hperm, hnodup⟩ := h
    have hmem : k ∈ c.m_list.map Prod.fst := hperm.mem_iff.1 ((contains_iff_mem_key _ _).1 hc2)
    have hp := perm_cons_eraseP_key k _ hmem
    refine ⟨⟨?_, ?_⟩, rfl, rfl⟩
    · simp only [List.map_cons, keys_eraseP]
      exact hperm.trans hp
    · simp only [List.map_cons, keys_eraseP]
      exact hp.nodup hnodup

theorem push_insert_max_size (c : LRU_cache K V) (k : K) (v : V) :
    (_push_insert c k v).m_max_size = c.m_max_size ∧
    (_push_insert c k v).m_max_memory_size = c.m_max_memory_size := by
  unfold _push_insert
  split
  · exact ⟨rfl, rfl⟩
  · exact ⟨rfl, rfl⟩

/-- Invariant of all reachable cache states: index and list are mutually
consistent, and the element count never exceeds `m_max_size`. -/
theorem lru_invariant (c : LRU_cache K V) (h : Reachable K V c) :
    c.consistent ∧ c._get_cache_size ≤ c.m_max_size := by
  induction h with
  | mk_size Size =>
    exact ⟨⟨List.Perm.refl _, List.nodup_nil⟩, by simp [mkCache, _get_cache_size]⟩
  | mk_size_memory Size Mem =>
    exact ⟨⟨List.Perm.refl _, List.nodup_nil⟩, by simp [mkCacheMem, _get_cache_size]⟩
  | push sizeofV k v c hr ih =>
    obtain ⟨hconc, hsize⟩ := ih
    have hc1 := consistent_push_insert c k v hconc
    obtain ⟨hne1, hsz1⟩ := push_insert_cache_size c k v
    obtain ⟨hmax1, _⟩ := push_insert_max_size c k v
    unfold push
    by_cases hev : _should_evict sizeofV (_push_insert c k v) = true
    · rw [if_pos hev]
      obtain ⟨last, _, _, _, hcons2, hsz2, _, hmax2⟩ := discard_spec _ hc1 hne1
      refine ⟨hcons2, ?_⟩
      rw [hsz2, hmax2, hmax1]
      by_cases hcon : c.m_hash_table.contains k = false
      · rw [if_pos hcon] at hsz1
        omega
      · rw [if_neg hcon] at hsz1
        omega
    · rw [if_neg hev]
      refine ⟨hc1, ?_⟩
      by_contra hgt
      apply hev
      unfold _should_evict
      simp only [Bool.or_eq_true, decide_eq_true_eq]
      left
      omega
  | get k c hr ih =>
    obtain ⟨hconc, hsize⟩ := ih
    obtain ⟨hcg, htab, hmax⟩ := consistent_get c k hconc
    refine ⟨hcg, ?_⟩
    unfold _get_cache_size at hsize ⊢
    rw [htab, hmax]
    exact hsize
  | reset_stats c hr ih =>
    exact ⟨ih.1, ih.2⟩

end LRU_cache

/-- A concrete two-entry cache (bound 1, no memory bound) used as witness
input. -/
def cacheW : LRU_cache Nat Nat :=
  { m_list := [(1, 5), (2, 6)], m_hash_table := [1, 2], m_max_size := 1
    m_max_memory_size := 0, m_stats := { m_get_cnt := 0, m_hit_cnt := 0 } }

/-- A concrete cache with 6 recorded gets and 3 hits, used as witness
input. -/
def cacheStatsW : LRU_cache Nat Nat :=
  { m_list := [(1, 5)], m_hash_table := [1], m_max_size := 3
    m_max_memory_size := 0, m_stats := { m_get_cnt := 6, m_hit_cnt := 3 } }

/-- A concrete cache with 3 recorded gets and 1 hit: its true hit rate
1/3 is not representable in binary64. -/
def cacheThirdW : LRU_cache Nat Nat :=
  { m_list := [(1, 5)], m_hash_table := [1], m_max_size := 3
    m_max_memory_size := 0, m_stats := { m_get_cnt := 3, m_hit_cnt := 1 } }

/-- A concrete two-element capacity-3 ring buffer used as witness input. -/
def queueW : circular_queue Int :=
  circular_queue.pushList (circular_queue.mkQueue Int 3) [7, 8]

/-- A concrete world of two empty capacity-2 ring buffers sharing one
store, used as witness input. -/
def worldW : cq_world Int :=
  { store := [[0, 0]]
    qa := { m_buffer := 0, m_capacity := 2, m_head := 0, m_tail := 0, m_isEmpty := true }
    qb := { m_buffer := 0, m_capacity := 2, m_head := 0, m_tail := 0, m_isEmpty := true } }

open LRU_cache in
/-- C2: after the insert/update phase of every `push`, the eviction step
runs exactly once: when the eviction condition holds it removes exactly the
tail (least-recently-used) entry of the list, from both the list and the
index; otherwise it removes nothing; a single `push` never removes more
than one entry even if the cache is still over budget afterwards. -/
theorem C2_push_evicts_at_most_one_tail_entry (K V : Type) [DecidableEq K]
    (sizeofV : Nat) (c : LRU_cache K V) (k : K) (v : V) (h : c.consistent) :
    (_should_evict sizeofV (_push_insert c k v) = true →
      ∃ last, (_push_insert c k v).m_list.getLast? = some last ∧
        (push sizeofV c k v).m_list = (_push_insert c k v).m_list.dropLast ∧
        (push sizeofV c k v).m_hash_table
          = (_push_insert c k v).m_hash_table.erase last.1 ∧
        last.1 ∉ (push sizeofV c k v).m_hash_table ∧
        (push sizeofV c k v)._get_cache_size + 1
          = (_push_insert c k v)._get_cache_size) ∧
    (_should_evict sizeofV (_push_insert c k v) = false →
      push sizeofV c k v = _push_insert c k v) ∧
    (_push_insert c k v).m_list.length ≤ (push sizeofV c k v).m_list.length + 1 := by
  have hc1 := consistent_push_insert c k v h
  obtain ⟨hne1, _⟩ := push_insert_cache_size c k v
  refine ⟨?_, ?_, ?_⟩
  · intro hev
    obtain ⟨last, hlast, hlist, htab, _, hsz, hnin, _⟩ := discard_spec _ hc1 hne1
    refine ⟨last, hlast, ?_, ?_, ?_, ?_⟩
    · rw [push, if_pos hev]
      exact hlist
    · rw [push, if_pos hev]
      exact htab
    · rw [push, if_pos hev]
      exact hnin
    · rw [push, if_pos hev]
      have hpos : 1 ≤ (_push_insert c k v)._get_cache_size := by
        have hlen : (_push_insert c k v).m_hash_table.length
            = ((_push_insert c k v).m_list.map Prod.fst).length := hc1.1.length_eq
        unfold _get_cache_size
        rw [hlen]
        simp only [List.length_map]
        cases hl : (_push_insert c k v).m_list with
        | nil => exact absurd hl hne1
        | cons a as => simp
      omega
  · intro hev
    rw [push, if_neg (by rw [hev]; simp)]
  · rw [push]
    by_cases hev : _should_evict sizeofV (_push_insert c k v) = true
    · rw [if_pos hev]
      obtain ⟨last, _, hlist, _, _, _, _, _⟩ := discard_spec _ hc1 hne1
      rw [hlist]
      simp only [List.length_dropLast]
      omega
    · rw [if_neg hev]
      omega

open LRU_cache in
/-- C5: every `get` increments `get_count` by exactly one; a hit
additionally increments `hit_count`, moves the entry to the head of the
recency list and returns the stored value; a miss returns not-found and
changes neither `hit_count` nor the entries nor their order — it is a
normal result, not an error. -/
theorem C5_get_hit_miss_behaviour (K V : Type) [DecidableEq K]
    (c : LRU_cache K V) (k : K) (h : c.consistent) :
    ((LRU_cache.get c k).2).m_stats.m_get_cnt = c.m_stats.m_get_cnt + 1 ∧
    ((LRU_cache.get c k).2).m_hash_table = c.m_hash_table ∧
    (c.exists k = true →
      ∃ v, (k, v) ∈ c.m_list ∧ (LRU_cache.get c k).1 = some v ∧
        ((LRU_cache.get c k).2).m_stats.m_hit_cnt = c.m_stats.m_hit_cnt + 1 ∧
        ((LRU_cache.get c k).2).m_list = (k, v) :: c.m_list.eraseP (fun p => p.1 == k)) ∧
    (c.exists k = false →
      (LRU_cache.get c k).1 = none ∧
      ((LRU_cache.get c k).2).m_stats.m_hit_cnt = c.m_stats.m_hit_cnt ∧
      ((LRU_cache.get c k).2).m_list = c.m_list) := by
  unfold LRU_cache.get LRU_cache.exists
  by_cases hc : c.m_hash_table.contains k = false
  · rw [if_pos hc]
    refine ⟨rfl, rfl, ?_, fun _ => ⟨rfl, rfl, rfl⟩⟩
    intro hcon
    rw [hc] at hcon
    cases hcon
  · rw [if_neg hc]
    have hc2 : c.m_hash_table.contains k = true := by
      revert hc; cases c.m_hash_table.contains k <;> simp
    obtain ⟨v, hv⟩ := mem_of_contains_key c k h hc2
    rw [find?_key_of_mem k v c.m_list h.2 hv]
    refine ⟨rfl, rfl, ?_, ?_⟩
    · intro _
      exact ⟨v, hv, rfl, rfl, rfl⟩
    · intro hcon
      rw [hc2] at hcon
      cases hcon

open LRU_cache in
/-- C6 (invariant for the operations that compile): in every state
reachable by construction, `push`, `get`, `exists` and `reset_stats`, the
hash table holds exactly the keys of the recency list, each exactly once —
the two structures are mutually consistent.  Copy construction is absent
from `Reachable`: the C++ copy constructor does not compile when
instantiated (it writes the nonexistent members `this->m_get_cnt` /
`this->m_hit_cnt`), and it would copy iterators pointing into the source's
list — see the claim record. -/
theorem C6_index_list_consistent_without_copy (K V : Type) [DecidableEq K]
    (c : LRU_cache K V) (h : Reachable K V c) : c.consistent :=
  (lru_invariant c h).1

open LRU_cache in
/-- C9 (amended): `get_hit_rate()` performs IEEE binary64 division, so for
`get_count > 0` (both counters below `2 ^ 53`, as any reachable counters
are) it returns exactly `hit_count / get_count` precisely when that
quotient is representable in binary64 — in particular `3 / 6 = 0.5`
exactly, but not `1 / 3`, which rounds (see the counterexample) — and
`reset_stats()` zeroes both counters while leaving the entries, their
order and both bounds unchanged. -/
theorem C9_hit_rate_rounded_and_reset (K V : Type) [DecidableEq K]
    (c : LRU_cache K V) (h : c.m_stats.m_get_cnt ≠ 0)
    (hh : c.m_stats.m_hit_cnt < 2 ^ 53) (hg : c.m_stats.m_get_cnt < 2 ^ 53) :
    (FpRepresentable ((c.m_stats.m_hit_cnt : ℚ) / (c.m_stats.m_get_cnt : ℚ)) →
      get_hit_rate c = (c.m_stats.m_hit_cnt : ℚ) / (c.m_stats.m_get_cnt : ℚ)) ∧
    (reset_stats c).m_stats.m_get_cnt = 0 ∧
    (reset_stats c).m_stats.m_hit_cnt = 0 ∧
    (reset_stats c).m_list = c.m_list ∧
    (reset_stats c).m_hash_table = c.m_hash_table ∧
    (reset_stats c).m_max_size = c.m_max_size ∧
    (reset_stats c).m_max_memory_size = c.m_max_memory_size := by
  refine ⟨?_, rfl, rfl, rfl, rfl, rfl, rfl⟩
  intro hrep
  exact fpDiv_ofNat_exact _ _ (Nat.pos_of_ne_zero h) hh hg hrep

open LRU_cache in
/-- C10: with `max_count = N`, after any sequence of operations from the
empty cache the entry count never exceeds `N` once each operation has
returned: a push adds at most one entry and the same push's eviction step
removes one whenever the bound would be exceeded. -/
theorem C10_count_never_exceeds_bound (K V : Type) [DecidableEq K]
    (c : LRU_cache K V) (h : Reachable K V c) :
    c._get_cache_size ≤ c.m_max_size :=
  (lru_invariant c h).2

open circular_queue in
/-- C1: for every capacity `C ≥ 1`, pushing `C` values into the freshly
constructed (empty) ring buffer gives `size() = C`; one further `push_back`
keeps `size() = C` and makes `front()` the second value ever pushed — the
push at capacity silently drops exactly the oldest element. -/
theorem C1_push_at_capacity_drops_oldest (T : Type) [Inhabited T] (C : Nat)
    (hC : 1 ≤ C) (vs : List T) (hlen : vs.length = C + 1) :
    (pushList (mkQueue T C) (vs.take C)).size = C ∧
    (pushList (mkQueue T C) vs).size = C ∧
    (pushList (mkQueue T C) vs).front? = vs[1]? := by
  have hwf0 : (mkQueue T C).Wf := mkQueue_wf C hC
  obtain ⟨hwf1, hcap1, hlist1⟩ := pushList_toList (vs.take C) (mkQueue T C) hwf0
  obtain ⟨hwf2, hcap2, hlist2⟩ := pushList_toList vs (mkQueue T C) hwf0
  rw [mkQueue_toList, List.nil_append] at hlist1 hlist2
  have hcapq : (mkQueue T C).m_capacity = C := rfl
  rw [hcapq] at hlist1 hlist2
  have htake : (vs.take C).length = C := by
    rw [List.length_take]
    omega
  refine ⟨?_, ?_, ?_⟩
  · show (pushList (mkQueue T C) (vs.take C))._get_size = C
    rw [← toList_length, hlist1]
    simp only [List.length_drop, htake]
    omega
  · show (pushList (mkQueue T C) vs)._get_size = C
    rw [← toList_length, hlist2]
    simp only [List.length_drop, hlen]
    omega
  · rw [front?_eq _ hwf2, hlist2, hlen]
    have h1 : C + 1 - C = 1 := by omega
    rw [h1, List.getElem?_drop]

open circular_queue in
/-- C3: popping `size()` times returns exactly the current contents in
oldest-first order; the pop removing the last element resets head and tail
together and raises the empty flag, so a subsequent `push_back` behaves as
a push into an empty buffer. -/
theorem C3_pop_oldest_first_then_empty (T : Type) [Inhabited T]
    (q : circular_queue T) (hwf : q.Wf) :
    (popN q.size q).1 = toList q ∧
    (popN q.size q).2.m_isEmpty = true ∧
    (popN q.size q).2.m_head = (popN q.size q).2.m_tail ∧
    (∀ v : T, toList ((popN q.size q).2.push_back v) = [v]) := by
  obtain ⟨h1, hwf2, hemp, hht, hcap⟩ := popN_spec q.size q hwf rfl
  refine ⟨h1, hemp, hht, ?_⟩
  intro v
  have hc : 1 ≤ q.m_capacity := hwf.1
  rw [push_back_toList _ v hwf2]
  rw [if_neg (by rw [size_of_empty _ hemp, hcap]; omega), empty_toList _ hemp]
  rfl

open circular_queue in
/-- C4: for a buffer built by any push sequence, `operator[](n)` with
`n < size()` returns the `n`-th oldest surviving element (`n = 0` the
oldest), read from storage slot `(head + n) % capacity`. -/
theorem C4_index_is_nth_oldest (T : Type) [Inhabited T] (C : Nat)
    (hC : 1 ≤ C) (vs : List T) (n : Nat)
    (hn : n < (pushList (mkQueue T C) vs).size) :
    (pushList (mkQueue T C) vs).opIndex n
      = some ((vs.drop (vs.length - C)).getD n default) ∧
    (pushList (mkQueue T C) vs).opIndex n
      = some ((pushList (mkQueue T C) vs)._at
          (((pushList (mkQueue T C) vs).m_head + n) %
            (pushList (mkQueue T C) vs).m_capacity)) := by
  have hwf0 : (mkQueue T C).Wf := mkQueue_wf C hC
  obtain ⟨hwf1, hcap1, hlist1⟩ := pushList_toList vs (mkQueue T C) hwf0
  rw [mkQueue_toList, List.nil_append] at hlist1
  have hcapq : (mkQueue T C).m_capacity = C := rfl
  rw [hcapq] at hlist1
  have hnlt : n < (vs.drop (vs.length - C)).length := by
    have := toList_length (pushList (mkQueue T C) vs)
    rw [hlist1] at this
    exact lt_of_lt_of_le hn (le_of_eq this.symm)
  constructor
  · rw [opIndex_eq, hlist1, List.getElem?_eq_getElem hnlt]
    congr 1
    rw [List.getD_eq_getElem?_getD, List.getElem?_eq_getElem hnlt]
    rfl
  · rw [opIndex]
    rw [if_pos (show n < (pushList (mkQueue T C) vs)._get_size from hn)]
    rfl

open circular_queue in
/-- C7: `front()`, `back()` and `pop()` on an empty buffer, and
`operator[](n)` with `n ≥ size()`, hit the fatal assertion (modelled as
`none` — an unrecoverable abort, not a catchable error); under the
documented preconditions the assertion branch is unreachable and every
operation produces a value. -/
theorem C7_preconditions_fatal_otherwise_total (T : Type) [Inhabited T]
    (q : circular_queue T) :
    (q.m_isEmpty = true → q.front? = none ∧ q.back? = none ∧ q.pop = none) ∧
    (q.m_isEmpty = false →
      (∃ x, q.front? = some x) ∧ (∃ x, q.back? = some x) ∧
      (∃ r, q.pop = some r)) ∧
    (∀ n, q._get_size ≤ n → q.opIndex n = none) ∧
    (∀ n, n < q._get_size → ∃ x, q.opIndex n = some x) := by
  refine ⟨?_, ?_, ?_, ?_⟩
  · intro h
    exact ⟨by rw [front?, if_pos h], by rw [back?, if_pos h], by rw [pop, if_pos h]⟩
  · intro h
    have hne : ¬(q.m_isEmpty = true) := by rw [h]; simp
    refine ⟨⟨_, by rw [front?, if_neg hne]⟩, ⟨_, by rw [back?, if_neg hne]⟩, ?_⟩
    rw [pop, if_neg hne]
    simp only
    split
    · exact ⟨_, rfl⟩
    · exact ⟨_, rfl⟩
  · intro n hge
    rw [opIndex, if_neg (by omega)]
  · intro n hlt
    exact ⟨_, by rw [opIndex, if_pos hlt]⟩

open circular_queue cq_world in
/-- C8: a copy made by copy construction (`copyW`) — and `operator=`, the
identical `assignW` — has the same observable state (storage contents,
head, tail, empty flag, capacity, hence size, order and values) as the
source at the moment of the copy, and later `push_back` or `pop` on either
instance leaves the other instance's observable state unchanged: snapshot
semantics, not aliasing. -/
theorem C8_copy_is_independent_snapshot (T : Type) [Inhabited T]
    (w : cq_world T) (hwf : WfW w) :
    assignW w = copyW w ∧
    toPlain (copyW w) (copyW w).qb = toPlain w w.qa ∧
    (∀ v, toPlain (pushW (copyW w) true v) (pushW (copyW w) true v).qb
      = toPlain (copyW w) (copyW w).qb) ∧
    (∀ v, toPlain (pushW (copyW w) false v) (pushW (copyW w) false v).qa
      = toPlain (copyW w) (copyW w).qa) ∧
    toPlain (popW (copyW w) true) (popW (copyW w) true).qb
      = toPlain (copyW w) (copyW w).qb ∧
    toPlain (popW (copyW w) false) (popW (copyW w) false).qa
      = toPlain (copyW w) (copyW w).qa := by
  obtain ⟨hwa0, hwb0⟩ := hwf
  have hstorelen : (copyW w).store.length = w.store.length + 1 := by
    show (w.store ++ [bufAt w w.qa]).length = w.store.length + 1
    simp
  have hwfa : (copyW w).qa.m_buffer < (copyW w).store.length := by
    show w.qa.m_buffer < (copyW w).store.length
    rw [hstorelen]
    omega
  have hwfb : (copyW w).qb.m_buffer < (copyW w).store.length := by
    show w.store.length < (copyW w).store.length
    rw [hstorelen]
    omega
  have hne_ab : (copyW w).qa.m_buffer ≠ (copyW w).qb.m_buffer := by
    show w.qa.m_buffer ≠ w.store.length
    omega
  refine ⟨rfl, ?_, ?_, ?_, ?_, ?_⟩
  · unfold copyW toPlain ofPlain bufAt
    simp only
    rw [getD_append_length_general]
  · intro v
    exact writeBack_frame_qb (copyW w) _ _ hwfb hne_ab
  · intro v
    exact writeBack_frame_qa (copyW w) _ _ hwfa (Ne.symm hne_ab)
  · have hred : popW (copyW w) true =
        match (toPlain (copyW w) (copyW w).qa).pop with
        | none => copyW w
        | some (_, q') => writeBack (copyW w) true (copyW w).qa.m_buffer q' := rfl
    rw [hred]
    cases hp : (toPlain (copyW w) (copyW w).qa).pop with
    | none => rfl
    | some pr =>
      cases pr with
      | mk x q' =>
        exact writeBack_frame_qb (copyW w) _ _ hwfb hne_ab
  · have hred : popW (copyW w) false =
        match (toPlain (copyW w) (copyW w).qb).pop with
        | none => copyW w
        | some (_, q') => writeBack (copyW w) false (copyW w).qb.m_buffer q' := rfl
    rw [hred]
    cases hp : (toPlain (copyW w) (copyW w).qb).pop with
    | none => rfl
    | some pr =>
      cases pr with
      | mk x q' =>
        exact writeBack_frame_qa (copyW w) _ _ hwfa (Ne.symm hne_ab)

open circular_queue in
/-- Witness for C1 at capacity 2 with pushed values 10, 20, 30. -/
theorem C1_witness :
    (1 ≤ 2 ∧ ([10, 20, 30] : List Int).length = 2 + 1) ∧
    ((pushList (mkQueue Int 2) (([10, 20, 30] : List Int).take 2)).size = 2 ∧
     (pushList (mkQueue Int 2) ([10, 20, 30] : List Int)).size = 2 ∧
     (pushList (mkQueue Int 2) ([10, 20, 30] : List Int)).front?
       = ([10, 20, 30] : List Int)[1]?) :=
  ⟨⟨by decide, by decide⟩,
   C1_push_at_capacity_drops_oldest Int 2 (by decide) [10, 20, 30] (by decide)⟩

open LRU_cache in
/-- Witness for C2: pushing key 3 into the over-bound two-entry cache
evicts exactly the tail entry. -/
theorem C2_witness :
    cacheW.consistent ∧
    (_should_evict 4 (_push_insert cacheW 3 7) = true →
      ∃ last, (_push_insert cacheW 3 7).m_list.getLast? = some last ∧
        (push 4 cacheW 3 7).m_list = (_push_insert cacheW 3 7).m_list.dropLast ∧
        (push 4 cacheW 3 7).m_hash_table
          = (_push_insert cacheW 3 7).m_hash_table.erase last.1 ∧
        last.1 ∉ (push 4 cacheW 3 7).m_hash_table ∧
        (push 4 cacheW 3 7)._get_cache_size + 1
          = (_push_insert cacheW 3 7)._get_cache_size) ∧
    (_push_insert cacheW 3 7).m_list.length ≤ (push 4 cacheW 3 7).m_list.length + 1 :=
  ⟨by decide,
   (C2_push_evicts_at_most_one_tail_entry Nat Nat 4 cacheW 3 7 (by decide)).1,
   (C2_push_evicts_at_most_one_tail_entry Nat Nat 4 cacheW 3 7 (by decide)).2.2⟩

open circular_queue in
/-- Witness for C3 on the concrete two-element buffer. -/
theorem C3_witness :
    queueW.Wf ∧
    ((popN queueW.size queueW).1 = toList queueW ∧
     (popN queueW.size queueW).2.m_isEmpty = true ∧
     (popN queueW.size queueW).2.m_head = (popN queueW.size queueW).2.m_tail ∧
     toList ((popN queueW.size queueW).2.push_back 9) = [9]) :=
  ⟨by decide,
   (C3_pop_oldest_first_then_empty Int queueW (by decide)).1,
   (C3_pop_oldest_first_then_empty Int queueW (by decide)).2.1,
   (C3_pop_oldest_first_then_empty Int queueW (by decide)).2.2.1,
   (C3_pop_oldest_first_then_empty Int queueW (by decide)).2.2.2 9⟩

open circular_queue in
/-- Witness for C4 at capacity 2, values 1, 2, 3, index 0. -/
theorem C4_witness :
    (1 ≤ 2 ∧ 0 < (pushList (mkQueue Int 2) ([1, 2, 3] : List Int)).size) ∧
    ((pushList (mkQueue Int 2) ([1, 2, 3] : List Int)).opIndex 0
       = some ((([1, 2, 3] : List Int).drop (([1, 2, 3] : List Int).length - 2)).getD 0
           default) ∧
     (pushList (mkQueue Int 2) ([1, 2, 3] : List Int)).opIndex 0
       = some ((pushList (mkQueue Int 2) ([1, 2, 3] : List Int))._at
           (((pushList (mkQueue Int 2) ([1, 2, 3] : List Int)).m_head + 0) %
             (pushList (mkQueue Int 2) ([1, 2, 3] : List Int)).m_capacity))) :=
  ⟨⟨by decide, by decide⟩,
   C4_index_is_nth_oldest Int 2 (by decide) [1, 2, 3] 0 (by decide)⟩

open LRU_cache in
/-- Witness for C5: `get` of the present key 1 and counter behaviour. -/
theorem C5_witness :
    cacheW.consistent ∧ cacheW.exists 1 = true ∧
    (((LRU_cache.get cacheW 1).2).m_stats.m_get_cnt = cacheW.m_stats.m_get_cnt + 1 ∧
     ((LRU_cache.get cacheW 1).2).m_hash_table = cacheW.m_hash_table ∧
     (∃ v, (1, v) ∈ cacheW.m_list ∧ (LRU_cache.get cacheW 1).1 = some v ∧
       ((LRU_cache.get cacheW 1).2).m_stats.m_hit_cnt = cacheW.m_stats.m_hit_cnt + 1 ∧
       ((LRU_cache.get cacheW 1).2).m_list
         = (1, v) :: cacheW.m_list.eraseP (fun p => p.1 == 1))) :=
  ⟨by decide, by decide,
   (C5_get_hit_miss_behaviour Nat Nat cacheW 1 (by decide)).1,
   (C5_get_hit_miss_behaviour Nat Nat cacheW 1 (by decide)).2.1,
   (C5_get_hit_miss_behaviour Nat Nat cacheW 1 (by decide)).2.2.1 (by decide)⟩

open LRU_cache in
/-- Witness for C6 on a concrete reachable state. -/
theorem C6_witness :
    (push 4 (mkCache Nat Nat 2) 1 5).consistent :=
  C6_index_list_consistent_without_copy Nat Nat _
    (Reachable.push 4 1 5 (mkCache Nat Nat 2) (Reachable.mk_size 2))

open circular_queue in
/-- Witness for C7 on an empty and a non-empty concrete buffer. -/
theorem C7_witness :
    ((mkQueue Int 2).front? = none ∧ (mkQueue Int 2).back? = none ∧
      (mkQueue Int 2).pop = none) ∧
    ((∃ x, queueW.front? = some x) ∧ (∃ x, queueW.back? = some x) ∧
      (∃ r, queueW.pop = some r)) ∧
    queueW.opIndex 5 = none ∧
    (∃ x, queueW.opIndex 0 = some x) :=
  ⟨(C7_preconditions_fatal_otherwise_total Int (mkQueue Int 2)).1 rfl,
   (C7_preconditions_fatal_otherwise_total Int queueW).2.1 (by decide),
   (C7_preconditions_fatal_otherwise_total Int queueW).2.2.1 5 (by decide),
   (C7_preconditions_fatal_otherwise_total Int queueW).2.2.2 0 (by decide)⟩

open circular_queue cq_world in
/-- Witness for C8 on the concrete one-buffer world. -/
theorem C8_witness :
    WfW worldW ∧
    (assignW worldW = copyW worldW ∧
     toPlain (copyW worldW) (copyW worldW).qb = toPlain worldW worldW.qa ∧
     toPlain (pushW (copyW worldW) true 5) (pushW (copyW worldW) true 5).qb
       = toPlain (copyW worldW) (copyW worldW).qb ∧
     toPlain (pushW (copyW worldW) false 5) (pushW (copyW worldW) false 5).qa
       = toPlain (copyW worldW) (copyW worldW).qa ∧
     toPlain (popW (copyW worldW) true) (popW (copyW worldW) true).qb
       = toPlain (copyW worldW) (copyW worldW).qb ∧
     toPlain (popW (copyW worldW) false) (popW (copyW worldW) false).qa
       = toPlain (copyW worldW) (copyW worldW).qa) :=
  ⟨by decide,
   (C8_copy_is_independent_snapshot Int worldW (by decide)).1,
   (C8_copy_is_independent_snapshot Int worldW (by decide)).2.1,
   (C8_copy_is_independent_snapshot Int worldW (by decide)).2.2.1 5,
   (C8_copy_is_independent_snapshot Int worldW (by decide)).2.2.2.1 5,
   (C8_copy_is_independent_snapshot Int worldW (by decide)).2.2.2.2.1,
   (C8_copy_is_independent_snapshot Int worldW (by decide)).2.2.2.2.2⟩

open LRU_cache in
/-- Witness for C9 on the 6-gets/3-hits cache: 3/6 is representable
(`1 * 2 ^ (-1)`), so the returned double is exactly 1/2. -/
theorem C9_witness :
    cacheStatsW.m_stats.m_get_cnt ≠ 0 ∧
    cacheStatsW.m_stats.m_hit_cnt < 2 ^ 53 ∧
    cacheStatsW.m_stats.m_get_cnt < 2 ^ 53 ∧
    FpRepresentable
      ((cacheStatsW.m_stats.m_hit_cnt : ℚ) / (cacheStatsW.m_stats.m_get_cnt : ℚ)) ∧
    (get_hit_rate cacheStatsW
       = (cacheStatsW.m_stats.m_hit_cnt : ℚ) / (cacheStatsW.m_stats.m_get_cnt : ℚ) ∧
     (reset_stats cacheStatsW).m_stats.m_get_cnt = 0 ∧
     (reset_stats cacheStatsW).m_stats.m_hit_cnt = 0 ∧
     (reset_stats cacheStatsW).m_list = cacheStatsW.m_list ∧
     (reset_stats cacheStatsW).m_hash_table = cacheStatsW.m_hash_table ∧
     (reset_stats cacheStatsW).m_max_size = cacheStatsW.m_max_size ∧
     (reset_stats cacheStatsW).m_max_memory_size = cacheStatsW.m_max_memory_size) ∧
    get_hit_rate cacheStatsW = (1 : ℚ) / 2 := by
  have hrep : FpRepresentable
      ((cacheStatsW.m_stats.m_hit_cnt : ℚ) / (cacheStatsW.m_stats.m_get_cnt : ℚ)) := by
    refine ⟨1, -1, by norm_num, ?_⟩
    show ((3:ℕ):ℚ) / ((6:ℕ):ℚ) = _
    rw [show ((-1:ℤ)) = -((1:ℕ):ℤ) from by norm_num, zpow_neg, zpow_natCast]
    norm_num
  have happ := C9_hit_rate_rounded_and_reset Nat Nat cacheStatsW
    (by decide) (by decide) (by decide)
  obtain ⟨hex, hrest⟩ := happ
  have hval := hex hrep
  refine ⟨by decide, by decide, by decide, hrep, ⟨hval, hrest⟩, ?_⟩
  rw [hval]
  show ((3:ℕ):ℚ) / ((6:ℕ):ℚ) = _
  norm_num

open LRU_cache in
/-- Counterexample to the original universal exactness claim: with 1 hit
out of 3 gets the program's double division does not return exactly 1/3 —
it returns the correctly rounded neighbour 6004799503160661 / 2 ^ 54. -/
theorem C9_counterexample :
    cacheThirdW.m_stats.m_get_cnt ≠ 0 ∧
    cacheThirdW.m_stats.m_hit_cnt < 2 ^ 53 ∧
    cacheThirdW.m_stats.m_get_cnt < 2 ^ 53 ∧
    get_hit_rate cacheThirdW
      ≠ (cacheThirdW.m_stats.m_hit_cnt : ℚ) / (cacheThirdW.m_stats.m_get_cnt : ℚ) ∧
    get_hit_rate cacheThirdW = 6004799503160661 / 2 ^ 54 := by
  have hval : get_hit_rate cacheThirdW = 6004799503160661 / 2 ^ 54 := by
    show fpVal (fpDiv (fpOfNat 1) (fpOfNat 3)) = _
    rw [fpDiv_one_three]
    simp only [fpVal]
    rw [show ((-54:ℤ)) = -((54:ℕ):ℤ) from by norm_num, zpow_neg, zpow_natCast]
    norm_num
  refine ⟨by decide, by decide, by decide, ?_, hval⟩
  rw [hval]
  show _ ≠ ((1:ℕ):ℚ) / ((3:ℕ):ℚ)
  norm_num

open LRU_cache in
/-- Witness for C10 on a concrete reachable state. -/
theorem C10_witness :
    (push 4 (mkCache Nat Nat 2) 1 5)._get_cache_size
      ≤ (push 4 (mkCache Nat Nat 2) 1 5).m_max_size :=
  C10_count_never_exceeds_bound Nat Nat _
    (Reachable.push 4 1 5 (mkCache Nat Nat 2) (Reachable.mk_size 2))

end tinycommon
